import Mathlib

/-!
Verification of `boost::histogram::detail::large_int`.

Shallow embedding of `include/boost/histogram/detail/large_int.hpp`.

* A `std::uint64_t` is a natural number below `u64_mod = 2^64`; every machine
  operation is written with an explicit reduction modulo `u64_mod`.
* `std::vector<std::uint64_t>` is a `List Nat`, least-significant word first.
* A reference parameter that is written (`T& t`) becomes an extra component of
  the returned value.
* `BOOST_ASSERT`, an out-of-range `data[i]` and an exhausted iteration budget all
  make an operation return `none`; `some r` means the call ran to its `return`.
* Every loop takes a budget (`fuel`) and spends one unit per iteration.
-/

namespace large_int_model

/-- The value `std::numeric_limits<std::uint64_t>::max()`, that is `2^64 - 1`. -/
def u64_max : Nat := 18446744073709551615

/-- The number of values of a `std::uint64_t`, that is `2^64`. -/
def u64_mod : Nat := 18446744073709551616

/-- Addition of two `std::uint64_t`, wrapping modulo `2^64`. -/
def wrap_add (a b : Nat) : Nat := (a + b) % u64_mod

/-- Subtraction of two `std::uint64_t`, wrapping modulo `2^64`. -/
def wrap_sub (a b : Nat) : Nat := (a + (u64_mod - b % u64_mod)) % u64_mod

/-- The function `safe_increment(T& t)` at `T = std::uint64_t`: the returned flag and the
new content of `t`. -/
def safe_increment (t : Nat) : Bool × Nat :=
  if t < u64_max then (true, wrap_add t 1) else (false, t)

/-- The function `safe_radd(T& t, const U& u)` at `T = U = std::uint64_t`: the returned flag
and the new content of `t`. -/
def safe_radd (t u : Nat) : Bool × Nat :=
  if wrap_sub u64_max t ≥ u then (true, wrap_add t u) else (false, t)

/-- The function `large_int::add_remainder(d, o)`: the new content of `d`, or `none` when
`BOOST_ASSERT(d > 0u)` fails. -/
def add_remainder (d o : Nat) : Option Nat :=
  if 0 < d then
    let tmp := u64_max
    let tmp := wrap_sub tmp o
    some (wrap_sub (wrap_sub d 1) tmp)
  else none

/-- The loop `while (i >= data.size()) data.push_back(0);` of `maybe_extend`. -/
def maybe_extend_loop : Nat → List Nat → Nat → Option (List Nat)
  | 0, _, _ => none
  | fuel + 1, data, i =>
    if i ≥ data.length then maybe_extend_loop fuel (data ++ [0]) i else some data

/-- The function `large_int::maybe_extend(i)`: the vector after the call; the returned
reference is then `data[i]`. The loop pushes `i + 1 - data.size()` words and tests its
condition once more. -/
def maybe_extend (data : List Nat) (i : Nat) : Option (List Nat) :=
  maybe_extend_loop (i + 1 - data.length + 1) data i

/-- The loop of `operator++`, entered with index `i`:
`while (!safe_increment(data[i])) { data[i] = 0; ++i; if (i == data.size()) { data.push_back(1); break; } }`. -/
def incr_loop : Nat → List Nat → Nat → Option (List Nat)
  | 0, _, _ => none
  | fuel + 1, data, i =>
    match data[i]? with
    | none => none
    | some di =>
      match safe_increment di with
      | (true, di1) => some (data.set i di1)
      | (false, _) =>
        let data := data.set i 0
        let i := i + 1
        if i = data.length then some (data ++ [1]) else incr_loop fuel data i

/-- The carry loop shared by both `operator+=`, entered with index `i`:
`{ auto& di = maybe_extend(i); if (safe_increment(di)) break; di = 0; ++i; }`. -/
def carry_loop : Nat → List Nat → Nat → Option (List Nat)
  | 0, _, _ => none
  | fuel + 1, data, i =>
    match maybe_extend data i with
    | none => none
    | some data =>
      match data[i]? with
      | none => none
      | some di =>
        match safe_increment di with
        | (true, di1) => some (data.set i di1)
        | (false, _) => carry_loop fuel (data.set i 0) (i + 1)

/-- The second half of the body of the range-for loop of `operator+=(const large_int&)`:
`if (!safe_radd(di, oi)) { add_remainder(di, oi); carry = true; } ++i;`. -/
def radd_step (data : List Nat) (carry : Bool) (i di oi : Nat) :
    Option (List Nat × Bool × Nat) :=
  match safe_radd di oi with
  | (true, di1) => some (data.set i di1, carry, i + 1)
  | (false, _) =>
    match add_remainder di oi with
    | none => none
    | some di1 => some (data.set i di1, true, i + 1)

/-- One iteration of the range-for loop of `operator+=(const large_int&)` on the operand
word `oi`, from the state `(data, carry, i)` to the next one. -/
def for_body (data : List Nat) (carry : Bool) (i oi : Nat) :
    Option (List Nat × Bool × Nat) :=
  match maybe_extend data i with
  | none => none
  | some data =>
    match data[i]? with
    | none => none
    | some di =>
      if carry then
        match safe_increment oi with
        | (true, oi1) => radd_step data false i di oi1
        | (false, _) => some (data, carry, i + 1)
      else radd_step data carry i di oi

/-- The range-for loop `for (std::uint64_t oi : o.data) { ... }` over the operand words. -/
def for_loop : List Nat → List Nat → Bool → Nat → Option (List Nat × Bool × Nat)
  | [], data, carry, i => some (data, carry, i)
  | oi :: rest, data, carry, i =>
    match for_body data carry i oi with
    | none => none
    | some (data1, carry1, i1) => for_loop rest data1 carry1 i1

/-- The loop `while (s > 0u) { --s; ... }` of `operator<(const large_int&)`. -/
def lt_loop (data odata : List Nat) : Nat → Option Bool
  | 0 => some false
  | s + 1 =>
    match data[s]?, odata[s]? with
    | some x, some y =>
      if x < y then some true
      else if x > y then some false
      else lt_loop data odata s
    | _, _ => none

/-- The call `std::equal(first1, last1, first2)` on two ranges of words; `none` when the
second range ends before the first. -/
def std_equal : List Nat → List Nat → Option Bool
  | [], _ => some true
  | _ :: _, [] => none
  | x :: xs, y :: ys => if x = y then std_equal xs ys else some false

/-- The struct `large_int`: its only member is the vector `data`. -/
structure large_int where
  data : List Nat
deriving DecidableEq

/-- The right-hand side of `operator+=(const large_int& o)`: either the object itself
(`this == &o`) or another object. -/
inductive operand where
  | self : operand
  | other (o : large_int) : operand

namespace large_int

/-- The constructor `large_int(const Allocator& a = {})`: `data(1, 0, a)`. -/
def ctor_default : large_int := ⟨List.replicate 1 0⟩

/-- The constructor `large_int(std::uint64_t v, const Allocator& a = {})`: `data(1, v, a)`. -/
def ctor (v : Nat) : large_int := ⟨List.replicate 1 v⟩

/-- The assignment `operator=(std::uint64_t o)`. -/
def op_assign (_this : large_int) (o : Nat) : large_int := ⟨List.replicate 1 o⟩

/-- The preincrement `operator++()`. -/
def op_incr (this : large_int) : Option large_int :=
  if this.data.length > 0 then
    (incr_loop (this.data.length + 1) this.data 0).map large_int.mk
  else none

/-- The body of `operator+=(const large_int& o)` after the aliasing test, on the words of
an operand that is not `*this`. -/
def add_words (this : large_int) (odata : List Nat) : Option large_int :=
  match for_loop odata this.data false 0 with
  | none => none
  | some (data, carry, i) =>
    if carry then (carry_loop (data.length + 1) data i).map large_int.mk
    else some ⟨data⟩

/-- The compound assignment `operator+=(const large_int& o)`. -/
def op_add_assign (this : large_int) : operand → Option large_int
  | operand.self =>
    let tmp := this
    add_words this tmp.data
  | operand.other o => add_words this o.data

/-- The compound assignment `operator+=(std::uint64_t o)`. -/
def op_add_assign_u64 (this : large_int) (o : Nat) : Option large_int :=
  if this.data.length > 0 then
    match this.data[0]? with
    | none => none
    | some d0 =>
      match safe_radd d0 o with
      | (true, d1) => some ⟨this.data.set 0 d1⟩
      | (false, _) =>
        match add_remainder d0 o with
        | none => none
        | some d1 =>
          (carry_loop (this.data.length + 1) (this.data.set 0 d1) 1).map large_int.mk
  else none

/-- The four `BOOST_ASSERT`s opening `operator<` and `operator==` on two `large_int`. -/
def asserts_ok (this o : large_int) : Bool :=
  decide (this.data.length > 0) && decide (o.data.length > 0)
    && (decide (this.data.length = 1) || decide (this.data.getLast?.getD 0 > 0))
    && (decide (o.data.length = 1) || decide (o.data.getLast?.getD 0 > 0))

/-- The comparison `operator<(const large_int& o)`. -/
def op_lt (this o : large_int) : Option Bool :=
  if asserts_ok this o then
    if this.data.length < o.data.length then some true
    else if this.data.length > o.data.length then some false
    else lt_loop this.data o.data this.data.length
  else none

/-- The comparison `operator==(const large_int& o)`. -/
def op_eq (this o : large_int) : Option Bool :=
  if asserts_ok this o then
    if this.data.length ≠ o.data.length then some false
    else std_equal this.data o.data
  else none

/-- The friend `operator>(x, y)`: `y < x`. -/
def op_gt (x y : large_int) : Option Bool := op_lt y x

/-- The friend `operator<=(x, y)`: `!(y < x)`. -/
def op_le (x y : large_int) : Option Bool := (op_lt y x).map not

/-- The friend `operator>=(x, y)`: `!(x < y)`. -/
def op_ge (x y : large_int) : Option Bool := (op_lt x y).map not

/-- The friend `operator!=(x, y)`: `!(x == y)`. -/
def op_ne (x y : large_int) : Option Bool := (op_eq x y).map not

/-- The member `operator<(const U& o)` at an unsigned integral `U`. -/
def op_lt_u64 (this : large_int) (o : Nat) : Option Bool :=
  if this.data.length > 0 then
    if this.data.length = 1 then
      match this.data[0]? with
      | none => none
      | some d0 => some (decide (d0 < o))
    else some false
  else none

/-- The member `operator>(const U& o)` at an unsigned integral `U`. -/
def op_gt_u64 (this : large_int) (o : Nat) : Option Bool :=
  if this.data.length > 0 then
    if this.data.length = 1 ∨ this.data.getLast?.getD 0 > 0 then
      if this.data.length > 1 then some true
      else
        match this.data[0]? with
        | none => none
        | some d0 => some (decide (d0 > o))
    else none
  else none

/-- The member `operator==(const U& o)` at an unsigned integral `U`. -/
def op_eq_u64 (this : large_int) (o : Nat) : Option Bool :=
  if this.data.length > 0 then
    if this.data.length = 1 then
      match this.data[0]? with
      | none => none
      | some d0 => some (decide (d0 = o))
    else some false
  else none

/-- The member `operator!=(const U& x)`: `!operator==(x)`. -/
def op_ne_u64 (this : large_int) (x : Nat) : Option Bool := (op_eq_u64 this x).map not

/-- The friend `operator<=(const large_int& x, const U& y)` at an unsigned integral `U`:
`!(x > y)`. -/
def op_le_u64 (x : large_int) (y : Nat) : Option Bool := (op_gt_u64 x y).map not

/-- The friend `operator>=(const large_int& x, const U& y)` at an unsigned integral `U`:
`!(x < y)`. -/
def op_ge_u64 (x : large_int) (y : Nat) : Option Bool := (op_lt_u64 x y).map not

/-- The friend `operator>(const U& x, const large_int& y)`: `y.operator<(x)`. -/
def u64_op_gt (x : Nat) (y : large_int) : Option Bool := op_lt_u64 y x

/-- The friend `operator<(const U& x, const large_int& y)`: `y.operator>(x)`. -/
def u64_op_lt (x : Nat) (y : large_int) : Option Bool := op_gt_u64 y x

/-- The friend `operator<=(const U& x, const large_int& y)`: `y >= x`. -/
def u64_op_le (x : Nat) (y : large_int) : Option Bool := op_ge_u64 y x

/-- The friend `operator>=(const U& x, const large_int& y)`: `y <= x`. -/
def u64_op_ge (x : Nat) (y : large_int) : Option Bool := op_le_u64 y x

/-- The friend `operator==(const U& y, const large_int& x)`: `x.operator==(y)`. -/
def u64_op_eq (y : Nat) (x : large_int) : Option Bool := op_eq_u64 x y

/-- The friend `operator!=(const U& y, const large_int& x)`: `x.operator!=(y)`. -/
def u64_op_ne (y : Nat) (x : large_int) : Option Bool := op_ne_u64 x y

/-- The loop of `operator double`,
`while (++i < data.size()) result += static_cast<double>(data[i]) * std::pow(2.0, i * 64);`,
over an uninterpreted type `F` of doubles: `cast` is `static_cast<double>`, `add` and `mul`
are the double sum and product, `pow2 e` is `std::pow(2.0, e)`. -/
def double_loop {F : Type} (cast : Nat → F) (add mul : F → F → F) (pow2 : Nat → F) :
    Nat → List Nat → Nat → F → Option F
  | 0, _, _, _ => none
  | fuel + 1, data, i, result =>
    let i := i + 1
    if i < data.length then
      match data[i]? with
      | none => none
      | some di =>
        double_loop cast add mul pow2 fuel data i (add result (mul (cast di) (pow2 (i * 64))))
    else some result

/-- The conversion `operator double()`, over an uninterpreted type `F` of doubles. -/
def op_double {F : Type} (cast : Nat → F) (add mul : F → F → F) (pow2 : Nat → F)
    (this : large_int) : Option F :=
  if this.data.length > 0 then
    match this.data[0]? with
    | none => none
    | some d0 => double_loop cast add mul pow2 (this.data.length + 1) this.data 0 (cast d0)
  else none

/-- The conversion as the spec words it, to be compared with `op_double`:
`double(data[0])` plus, for `i = 1 .. size-1` in increasing `i`, `double(data[i]) * 2^(64*i)`,
each sum and product taken in the arithmetic of `F`. -/
def double_sum_spec {F : Type} (cast : Nat → F) (add mul : F → F → F) (pow2 : Nat → F)
    (data : List Nat) : F :=
  (List.range' 1 (data.length - 1)).foldl
    (fun acc i => add acc (mul (cast (data.getD i 0)) (pow2 (64 * i)))) (cast (data.getD 0 0))

/-- Apply `operator++` `n` times in a row. -/
def incr_times : Nat → large_int → Option large_int
  | 0, c => some c
  | n + 1, c =>
    match op_incr c with
    | none => none
    | some c1 => incr_times n c1

/-- The represented number: the sum over `i` of `data[i] * 2^(64*i)`. -/
def value (c : large_int) : Nat :=
  ((List.range c.data.length).map (fun i => c.data.getD i 0 * 2 ^ (64 * i))).sum

/-- Every word of the vector is a `std::uint64_t`. -/
@[reducible]
def words_ok (c : large_int) : Prop := ∀ w ∈ c.data, w < u64_mod

/-- Invariant I1: the vector holds at least one word. -/
@[reducible]
def inv_I1 (c : large_int) : Prop := c.data.length > 0

/-- Invariant I2: a vector of more than one word has a non-zero last word. -/
@[reducible]
def inv_I2 (c : large_int) : Prop := c.data.length > 1 → c.data.getLast?.getD 0 ≠ 0

end large_int

/-- The counters reachable from the constructors and `operator=(std::uint64_t)` through
`operator++` and the two `operator+=`. -/
inductive Reachable : large_int → Prop
  | ctor_default : Reachable large_int.ctor_default
  | ctor (v : Nat) (hv : v < u64_mod) : Reachable (large_int.ctor v)
  | op_assign (c : large_int) (o : Nat) (ho : o < u64_mod) : Reachable (c.op_assign o)
  | op_incr {c r : large_int} (hc : Reachable c) (h : c.op_incr = some r) : Reachable r
  | op_add_assign_u64 {c r : large_int} (o : Nat) (ho : o < u64_mod) (hc : Reachable c)
      (h : c.op_add_assign_u64 o = some r) : Reachable r
  | op_add_assign {c o r : large_int} (hc : Reachable c) (ho : Reachable o)
      (h : c.op_add_assign (operand.other o) = some r) : Reachable r
  | op_add_assign_self {c r : large_int} (hc : Reachable c)
      (h : c.op_add_assign operand.self = some r) : Reachable r

/-- Exactly one of three propositions holds. -/
def exactly_one (p q r : Prop) : Prop :=
  (p ∧ ¬q ∧ ¬r) ∨ (¬p ∧ q ∧ ¬r) ∨ (¬p ∧ ¬q ∧ r)

/-- Horner form of the represented number of a word list. -/
def val : List Nat → Nat
  | [] => 0
  | x :: xs => x + u64_mod * val xs

/-- Every element of a word list is a `std::uint64_t`. -/
def Words (l : List Nat) : Prop := ∀ w ∈ l, w < u64_mod

/-- What a carry entering at word `i` leaves behind: one more unit at position `i`, words
still in range, and a length that is unchanged or grown by a final word `1`. -/
def CarryPost (data : List Nat) (i : Nat) (r : List Nat) : Prop :=
  Words r ∧ val r = val data + u64_mod ^ i ∧
    (r.length = data.length ∨ (r.length = data.length + 1 ∧ r.getLast? = some 1))

/-- The carry flag as a number. -/
def carry_val (c : Bool) : Nat := if c then 1 else 0

/-- Canonical form of a word list: I1 and I2. -/
def Canon (l : List Nat) : Prop := l.length > 0 ∧ (l.length > 1 → l.getLast?.getD 0 ≠ 0)

end large_int_model

namespace axis_model

/-- The type `index_type` of `boost/histogram/fwd.hpp`, a signed integer type: modelled as
the integers, on which the two casts below act as on every integer width. -/
abbrev index_type : Type := Int

namespace binary

/-- The member `binary::index(value_type x)`: `static_cast<index_type>(x)`. -/
def index (x : Bool) : index_type := if x then 1 else 0

/-- The member `binary::value(index_type i)`: `static_cast<value_type>(i)`. -/
def value (i : index_type) : Bool := decide (i ≠ 0)

/-- The member `binary::bin(index_type i)`: `value(i)`. -/
def bin (i : index_type) : Bool := value i

/-- The member `binary::size()`. -/
def size : index_type := 2

end binary

end axis_model

namespace large_int_model

open large_int

theorem u64_mod_eq : u64_mod = 2 ^ 64 := by decide

theorem u64_mod_pos : 0 < u64_mod := by decide

theorem range_sum_cons (x : Nat) (xs : List Nat) :
    ((List.range (xs.length + 1)).map (fun i => (x :: xs).getD i 0 * 2 ^ (64 * i))).sum
      = x + u64_mod * ((List.range xs.length).map (fun i => xs.getD i 0 * 2 ^ (64 * i))).sum := by
  have h : ∀ i : Nat, (x :: xs).getD (Nat.succ i) 0 * 2 ^ (64 * Nat.succ i)
      = u64_mod * (xs.getD i 0 * 2 ^ (64 * i)) := by
    intro i
    rw [List.getD_cons_succ, u64_mod_eq, Nat.mul_succ, pow_add]
    ring
  rw [List.range_succ_eq_map, List.map_cons, List.sum_cons, List.map_map, ← List.sum_map_mul_left]
  simp only [Function.comp_def, h]
  simp

theorem value_eq_val (c : large_int) : c.value = val c.data := by
  obtain ⟨l⟩ := c
  simp only [large_int.value]
  induction l with
  | nil => simp [val]
  | cons x xs ih =>
    rw [List.length_cons, range_sum_cons, ih, val]

theorem safe_increment_lt {t : Nat} (h : t < u64_max) : safe_increment t = (true, t + 1) := by
  simp only [safe_increment, wrap_add, u64_max, u64_mod] at *
  rw [if_pos h, Nat.mod_eq_of_lt (by omega)]

theorem safe_increment_max {t : Nat} (ht : t < u64_mod) (h : ¬ t < u64_max) :
    safe_increment t = (false, t) ∧ t = u64_max := by
  simp only [safe_increment, u64_max, u64_mod] at *
  rw [if_neg h]
  exact ⟨rfl, by omega⟩

theorem safe_radd_fits {t u : Nat} (ht : t < u64_mod) (h : t + u < u64_mod) :
    safe_radd t u = (true, t + u) := by
  simp only [safe_radd, wrap_add, wrap_sub, u64_max, u64_mod] at *
  rw [if_pos (by omega), Nat.mod_eq_of_lt h]

theorem safe_radd_overflow {t u : Nat} (ht : t < u64_mod) (h : ¬ t + u < u64_mod) :
    safe_radd t u = (false, t) := by
  simp only [safe_radd, wrap_add, wrap_sub, u64_max, u64_mod] at *
  rw [if_neg (by omega)]

theorem add_remainder_overflow {d o : Nat} (hd : d < u64_mod) (ho : o < u64_mod)
    (h : ¬ d + o < u64_mod) : add_remainder d o = some (d + o - u64_mod) := by
  have e : wrap_sub (wrap_sub d 1) (wrap_sub u64_max o) = d + o - u64_mod := by
    simp only [wrap_sub, u64_max, u64_mod] at *
    omega
  have hpos : 0 < d := by
    simp only [u64_mod] at *
    omega
  simp only [add_remainder]
  rw [if_pos hpos, e]

theorem val_nil : val [] = 0 := rfl

theorem val_cons (x : Nat) (xs : List Nat) : val (x :: xs) = x + u64_mod * val xs := rfl

theorem val_append (xs ys : List Nat) :
    val (xs ++ ys) = val xs + u64_mod ^ xs.length * val ys := by
  induction xs with
  | nil => simp [val_nil]
  | cons x xs ih =>
    rw [List.cons_append, val_cons, val_cons, ih, List.length_cons, pow_succ]
    ring

theorem val_append_one (xs : List Nat) (y : Nat) :
    val (xs ++ [y]) = val xs + y * u64_mod ^ xs.length := by
  rw [val_append, val_cons, val_nil]
  ring

theorem val_set {d : Nat} : ∀ (data : List Nat) (i v : Nat), data[i]? = some d →
    val (data.set i v) + d * u64_mod ^ i = val data + v * u64_mod ^ i
  | [], i, v, h => by simp at h
  | x :: xs, 0, v, h => by
    simp at h
    subst h
    simp only [List.set_cons_zero, val_cons, pow_zero]
    omega
  | x :: xs, i + 1, v, h => by
    simp only [List.getElem?_cons_succ] at h
    have ih := val_set xs i v h
    simp only [List.set_cons_succ, val_cons, pow_succ]
    have e1 : d * (u64_mod ^ i * u64_mod) = u64_mod * (d * u64_mod ^ i) := by ring
    have e2 : v * (u64_mod ^ i * u64_mod) = u64_mod * (v * u64_mod ^ i) := by ring
    rw [e1, e2, Nat.add_assoc, ← Nat.mul_add, ih, Nat.mul_add, Nat.add_assoc]

theorem Words_nil : Words [] := by intro w h; simp at h

theorem Words_cons {x : Nat} {xs : List Nat} : Words (x :: xs) ↔ x < u64_mod ∧ Words xs := by
  simp [Words]

theorem Words_append {xs ys : List Nat} : Words (xs ++ ys) ↔ Words xs ∧ Words ys := by
  simp only [Words, List.mem_append]
  constructor
  · intro h
    exact ⟨fun w hw => h w (Or.inl hw), fun w hw => h w (Or.inr hw)⟩
  · rintro ⟨h1, h2⟩ w (hw | hw)
    · exact h1 w hw
    · exact h2 w hw

theorem Words_set {data : List Nat} (h : Words data) (i : Nat) {v : Nat} (hv : v < u64_mod) :
    Words (data.set i v) := by
  intro w hw
  rcases List.mem_or_eq_of_mem_set hw with h1 | h1
  · exact h w h1
  · rw [h1]; exact hv

theorem Words_getElem? {data : List Nat} (h : Words data) {i d : Nat} (hd : data[i]? = some d) :
    d < u64_mod := h d (List.getElem?_mem hd)

theorem val_lt : ∀ (l : List Nat), Words l → val l < u64_mod ^ l.length
  | [], _ => by simp [val_nil]
  | x :: xs, h => by
    have hx := (Words_cons.1 h).1
    have ih := val_lt xs (Words_cons.1 h).2
    rw [val_cons, List.length_cons, pow_succ]
    calc x + u64_mod * val xs < u64_mod + u64_mod * val xs := by omega
      _ = u64_mod * (val xs + 1) := by ring
      _ ≤ u64_mod * u64_mod ^ xs.length := Nat.mul_le_mul_left _ ih
      _ = u64_mod ^ xs.length * u64_mod := by ring

theorem maybe_extend_loop_eq : ∀ (fuel : Nat) (data : List Nat) (i : Nat),
    i + 1 - data.length + 1 ≤ fuel →
    maybe_extend_loop fuel data i = some (data ++ List.replicate (i + 1 - data.length) 0)
  | 0, _, _, h => by omega
  | fuel + 1, data, i, h => by
    by_cases hi : i ≥ data.length
    · have ih := maybe_extend_loop_eq fuel (data ++ [0]) i
        (by simp only [List.length_append, List.length_singleton]; omega)
      rw [maybe_extend_loop, if_pos hi, ih]
      have e : i + 1 - data.length = (i + 1 - (data ++ [0]).length) + 1 := by
        simp only [List.length_append, List.length_singleton]; omega
      rw [e, List.replicate_succ, List.append_assoc]
      rfl
    · rw [maybe_extend_loop, if_neg hi]
      have e : i + 1 - data.length = 0 := by omega
      rw [e]
      simp

theorem maybe_extend_eq (data : List Nat) (i : Nat) :
    maybe_extend data i = some (data ++ List.replicate (i + 1 - data.length) 0) :=
  maybe_extend_loop_eq _ data i (Nat.le_refl _)

theorem maybe_extend_lt {data : List Nat} {i : Nat} (h : i < data.length) :
    maybe_extend data i = some data := by
  rw [maybe_extend_eq, show i + 1 - data.length = 0 by omega]
  simp

theorem maybe_extend_len (data : List Nat) :
    maybe_extend data data.length = some (data ++ [0]) := by
  rw [maybe_extend_eq, show data.length + 1 - data.length = 1 by omega]
  rfl

theorem one_lt_u64_mod : 1 < u64_mod := by decide

theorem u64_max_succ : u64_max + 1 = u64_mod := by decide

theorem u64_max_lt : u64_max < u64_mod := by decide

theorem incr_loop_spec : ∀ (fuel : Nat) (data : List Nat) (i : Nat), Words data →
    i < data.length → data.length - i ≤ fuel →
    ∃ r, incr_loop fuel data i = some r ∧ CarryPost data i r
  | 0, _, _, _, hi, hf => by omega
  | fuel + 1, data, i, hw, hi, hf => by
    obtain ⟨di, hdi⟩ : ∃ di, data[i]? = some di := ⟨data[i], by simp [hi]⟩
    have hdb := Words_getElem? hw hdi
    by_cases hlt : di < u64_max
    · simp only [incr_loop, hdi, safe_increment_lt hlt]
      have hv := val_set data i (di + 1) hdi
      refine ⟨_, rfl, Words_set hw i (by have := u64_max_succ; omega), ?_, Or.inl (by simp)⟩
      rw [Nat.add_mul, Nat.one_mul] at hv
      omega
    · obtain ⟨e, hmax⟩ := safe_increment_max hdb hlt
      simp only [incr_loop, hdi, e]
      have hv := val_set data i 0 hdi
      have hw0 : Words (data.set i 0) := Words_set hw i u64_mod_pos
      have hcarry : val (data.set i 0) + u64_mod ^ (i + 1) = val data + u64_mod ^ i := by
        rw [hmax] at hv
        rw [pow_succ, ← u64_max_succ, Nat.mul_add, Nat.mul_one] at *
        rw [Nat.mul_comm] at hv
        omega
      by_cases hend : i + 1 = (data.set i 0).length
      · rw [if_pos hend]
        refine ⟨_, rfl, Words_append.2 ⟨hw0, ?_⟩, ?_, Or.inr ⟨by simp, by simp⟩⟩
        · intro w h
          simp at h
          rw [h]; exact one_lt_u64_mod
        · rw [val_append_one, ← hend, Nat.one_mul]
          exact hcarry
      · rw [if_neg hend]
        rw [List.length_set] at hend
        obtain ⟨r, hr, hw1, hv1, hl1⟩ := incr_loop_spec fuel (data.set i 0) (i + 1) hw0
          (by rw [List.length_set]; omega) (by rw [List.length_set]; omega)
        refine ⟨r, hr, hw1, by omega, ?_⟩
        rw [List.length_set] at hl1
        exact hl1

theorem carry_loop_spec : ∀ (fuel : Nat) (data : List Nat) (i : Nat), Words data →
    i ≤ data.length → data.length - i + 1 ≤ fuel →
    ∃ r, carry_loop fuel data i = some r ∧ CarryPost data i r
  | 0, _, _, _, hi, hf => by omega
  | fuel + 1, data, i, hw, hi, hf => by
    by_cases hlen : i = data.length
    · subst hlen
      have h0 : (data ++ [0])[data.length]? = some 0 := by simp
      have hs : safe_increment 0 = (true, 1) := safe_increment_lt (by decide)
      simp only [carry_loop, maybe_extend_len, h0, hs]
      refine ⟨_, rfl, ?_, ?_, Or.inr ⟨by simp, ?_⟩⟩
      · apply Words_set _ _ one_lt_u64_mod
        exact Words_append.2 ⟨hw, by intro w h; simp at h; rw [h]; exact u64_mod_pos⟩
      · have hv := val_set (data ++ [0]) data.length 1 h0
        rw [val_append_one] at hv
        omega
      · rw [List.set_append_right _ _ (Nat.le_refl _)]
        simp
    · have hi : i < data.length := by omega
      obtain ⟨di, hdi⟩ : ∃ di, data[i]? = some di := ⟨data[i], by simp [hi]⟩
      have hdb := Words_getElem? hw hdi
      by_cases hlt : di < u64_max
      · simp only [carry_loop, maybe_extend_lt hi, hdi, safe_increment_lt hlt]
        have hv := val_set data i (di + 1) hdi
        refine ⟨_, rfl, Words_set hw i (by have := u64_max_succ; omega), ?_, Or.inl (by simp)⟩
        rw [Nat.add_mul, Nat.one_mul] at hv
        omega
      · obtain ⟨e, hmax⟩ := safe_increment_max hdb hlt
        simp only [carry_loop, maybe_extend_lt hi, hdi, e]
        have hv := val_set data i 0 hdi
        have hw0 : Words (data.set i 0) := Words_set hw i u64_mod_pos
        have hcarry : val (data.set i 0) + u64_mod ^ (i + 1) = val data + u64_mod ^ i := by
          rw [hmax] at hv
          rw [pow_succ, ← u64_max_succ, Nat.mul_add, Nat.mul_one] at *
          rw [Nat.mul_comm] at hv
          omega
        obtain ⟨r, hr, hw1, hv1, hl1⟩ := carry_loop_spec fuel (data.set i 0) (i + 1) hw0
          (by rw [List.length_set]; omega) (by rw [List.length_set]; omega)
        refine ⟨r, hr, hw1, by omega, ?_⟩
        rw [List.length_set] at hl1
        exact hl1

theorem maybe_extend_spec {data : List Nat} {i : Nat} (hw : Words data) (hi : i ≤ data.length) :
    ∃ d1 di, maybe_extend data i = some d1 ∧ d1[i]? = some di ∧ di < u64_mod ∧ Words d1 ∧
      val d1 = val data ∧ d1.length = max data.length (i + 1) := by
  by_cases hlen : i = data.length
  · subst hlen
    refine ⟨data ++ [0], 0, maybe_extend_len data, by simp, u64_mod_pos, ?_, ?_, by simp⟩
    · exact Words_append.2 ⟨hw, by intro w h; simp at h; rw [h]; exact u64_mod_pos⟩
    · rw [val_append_one]; omega
  · have hi : i < data.length := by omega
    have hdi : data[i]? = some data[i] := by simp [hi]
    exact ⟨data, data[i], maybe_extend_lt hi, hdi, Words_getElem? hw hdi, hw, rfl, by omega⟩

theorem radd_step_spec {d1 : List Nat} {i di oi : Nat} (hw : Words d1) (hdi : d1[i]? = some di)
    (ho : oi < u64_mod) :
    ∃ d2 c2, radd_step d1 false i di oi = some (d2, c2, i + 1) ∧ Words d2 ∧
      d2.length = d1.length ∧
      val d2 + carry_val c2 * u64_mod ^ (i + 1) = val d1 + oi * u64_mod ^ i := by
  have hdb := Words_getElem? hw hdi
  by_cases hfit : di + oi < u64_mod
  · simp only [radd_step, safe_radd_fits hdb hfit]
    refine ⟨_, _, rfl, Words_set hw i hfit, by simp, ?_⟩
    have hv := val_set d1 i (di + oi) hdi
    rw [Nat.add_mul] at hv
    simp only [carry_val, Bool.false_eq_true, if_false, Nat.zero_mul]
    omega
  · simp only [radd_step, safe_radd_overflow hdb hfit, add_remainder_overflow hdb ho hfit]
    refine ⟨_, _, rfl, Words_set hw i (by omega), by simp, ?_⟩
    have hv := val_set d1 i (di + oi - u64_mod) hdi
    have e : (di + oi - u64_mod) * u64_mod ^ i + u64_mod ^ (i + 1)
        = di * u64_mod ^ i + oi * u64_mod ^ i := by
      have e0 : di + oi - u64_mod + u64_mod = di + oi := by omega
      rw [pow_succ, Nat.mul_comm (u64_mod ^ i) u64_mod, ← Nat.add_mul, ← Nat.add_mul, e0]
    simp only [carry_val, if_true, Nat.one_mul]
    omega

theorem for_body_spec {data : List Nat} {i oi : Nat} (carry : Bool) (hw : Words data)
    (hi : i ≤ data.length) (ho : oi < u64_mod) :
    ∃ d2 c2, for_body data carry i oi = some (d2, c2, i + 1) ∧ Words d2 ∧
      d2.length = max data.length (i + 1) ∧
      val d2 + carry_val c2 * u64_mod ^ (i + 1)
        = val data + carry_val carry * u64_mod ^ i + oi * u64_mod ^ i := by
  obtain ⟨d1, di, hext, hdi, hdb, hw1, hv1, hl1⟩ := maybe_extend_spec hw hi
  cases carry with
  | false =>
    obtain ⟨d2, c2, h2, hw2, hl2, hv2⟩ := radd_step_spec hw1 hdi ho
    refine ⟨d2, c2, ?_, hw2, by omega, ?_⟩
    · simp only [for_body, hext, hdi, Bool.false_eq_true, if_false, h2]
    · simp only [carry_val, Bool.false_eq_true, if_false, Nat.zero_mul] at *
      omega
  | true =>
    by_cases hlt : oi < u64_max
    · obtain ⟨d2, c2, h2, hw2, hl2, hv2⟩ :=
        radd_step_spec hw1 hdi (show oi + 1 < u64_mod by have := u64_max_succ; omega)
      refine ⟨d2, c2, ?_, hw2, by omega, ?_⟩
      · simp only [for_body, hext, hdi, if_true, safe_increment_lt hlt, h2]
      · rw [Nat.add_mul, Nat.one_mul] at hv2
        simp only [carry_val, if_true, Nat.one_mul] at *
        omega
    · obtain ⟨e, hmax⟩ := safe_increment_max ho hlt
      refine ⟨d1, true, ?_, hw1, hl1, ?_⟩
      · simp only [for_body, hext, hdi, if_true, e]
      · simp only [carry_val, if_true, Nat.one_mul]
        rw [hmax, pow_succ, ← u64_max_succ, Nat.mul_add, Nat.mul_one, Nat.mul_comm, hv1]
        omega

theorem for_loop_spec : ∀ (os data : List Nat) (carry : Bool) (i : Nat), Words data →
    Words os → i ≤ data.length →
    ∃ d2 c2, for_loop os data carry i = some (d2, c2, i + os.length) ∧ Words d2 ∧
      d2.length = max data.length (i + os.length) ∧
      val d2 + carry_val c2 * u64_mod ^ (i + os.length)
        = val data + carry_val carry * u64_mod ^ i + u64_mod ^ i * val os
  | [], data, carry, i, hw, _, hi => by
    refine ⟨data, carry, rfl, hw, by simp only [List.length_nil]; omega, ?_⟩
    simp [val_nil]
  | oi :: rest, data, carry, i, hw, ho, hi => by
    obtain ⟨ho1, ho2⟩ := Words_cons.1 ho
    obtain ⟨d1, c1, h1, hw1, hl1, hv1⟩ := for_body_spec carry hw hi ho1
    obtain ⟨d2, c2, h2, hw2, hl2, hv2⟩ :=
      for_loop_spec rest d1 c1 (i + 1) hw1 ho2 (by omega)
    have ei : i + (oi :: rest).length = i + 1 + rest.length := by
      simp only [List.length_cons]; omega
    refine ⟨d2, c2, ?_, hw2, by omega, ?_⟩
    · simp only [for_loop, h1, h2, ei]
    · rw [ei, hv2, hv1, val_cons, Nat.mul_add, pow_succ]
      ring

theorem add_words_spec {a o : List Nat} (ha : Words a) (ho : Words o) :
    ∃ r, large_int.add_words ⟨a⟩ o = some ⟨r⟩ ∧ Words r ∧ val r = val a + val o ∧
      (r.length = max a.length o.length ∨
        (r.length = max a.length o.length + 1 ∧ r.getLast? = some 1)) := by
  obtain ⟨d, c, h, hw, hl, hv⟩ := for_loop_spec o a false 0 ha ho (Nat.zero_le _)
  simp only [Nat.zero_add, carry_val, Bool.false_eq_true, if_false, Nat.zero_mul, pow_zero,
    Nat.one_mul, Nat.add_zero] at h hl hv
  cases c with
  | false =>
    refine ⟨d, ?_, hw, ?_, Or.inl hl⟩
    · simp only [large_int.add_words, h, Bool.false_eq_true, if_false]
    · simp only [Bool.false_eq_true, if_false, Nat.zero_mul] at hv
      omega
  | true =>
    obtain ⟨r, hr, hwr, hvr, hlr⟩ := carry_loop_spec (d.length + 1) d o.length hw
      (by omega) (by omega)
    refine ⟨r, ?_, hwr, ?_, ?_⟩
    · simp only [large_int.add_words, h, if_true, hr, Option.map_some']
    · simp only [if_true, Nat.one_mul] at hv
      omega
    · rw [hl] at hlr
      exact hlr

theorem snoc_cases (l : List Nat) (h : l.length > 0) : ∃ L b, l = L ++ [b] := by
  rcases List.eq_nil_or_concat l with h1 | ⟨L, b, h1⟩
  · subst h1; simp at h
  · exact ⟨L, b, by rw [h1, List.concat_eq_append]⟩

theorem pow_pos_u64 (n : Nat) : 0 < u64_mod ^ n := pow_pos u64_mod_pos n

theorem val_ge_of_last_ne_zero {l : List Nat} (h0 : l.length > 0)
    (h : l.getLast?.getD 0 ≠ 0) : u64_mod ^ (l.length - 1) ≤ val l := by
  obtain ⟨L, b, rfl⟩ := snoc_cases l h0
  rw [List.getLast?_concat, Option.getD_some] at h
  rw [val_append_one, List.length_append, List.length_singleton, Nat.add_sub_cancel]
  have : 1 * u64_mod ^ L.length ≤ b * u64_mod ^ L.length :=
    Nat.mul_le_mul_right _ (Nat.pos_of_ne_zero h)
  omega

theorem last_ne_zero_of_val_ge {l : List Nat} (hw : Words l) (h0 : l.length > 0)
    (h : u64_mod ^ (l.length - 1) ≤ val l) : l.getLast?.getD 0 ≠ 0 := by
  obtain ⟨L, b, rfl⟩ := snoc_cases l h0
  rw [List.getLast?_concat, Option.getD_some]
  rw [val_append_one, List.length_append, List.length_singleton, Nat.add_sub_cancel] at h
  intro hb
  have := val_lt L (Words_append.1 hw).1
  rw [hb, Nat.zero_mul] at h
  omega

theorem Canon_val_ge {l : List Nat} (hc : Canon l) (h : l.length > 1) :
    u64_mod ^ (l.length - 1) ≤ val l :=
  val_ge_of_last_ne_zero hc.1 (hc.2 h)

/-- A mutation result is canonical when its length is `m` or `m + 1` with last word `1`,
and its value reaches `2^(64*(m-1))` whenever `m > 1`. -/
theorem Canon_of_shape {r : List Nat} {m : Nat} (hw : Words r) (hm : 0 < m)
    (hl : r.length = m ∨ (r.length = m + 1 ∧ r.getLast? = some 1))
    (hv : m > 1 → u64_mod ^ (m - 1) ≤ val r) : Canon r := by
  rcases hl with hl | ⟨hl, hlast⟩
  · refine ⟨by omega, fun h1 => last_ne_zero_of_val_ge hw (by omega) ?_⟩
    rw [hl]
    exact hv (by omega)
  · refine ⟨by omega, fun _ => ?_⟩
    rw [hlast]
    simp

theorem pow_le_pow_u64 {m n : Nat} (h : m ≤ n) : u64_mod ^ m ≤ u64_mod ^ n :=
  Nat.pow_le_pow_right u64_mod_pos h

theorem Canon_val_lt_of_length_lt {a b : List Nat} (ha : Words a) (ha0 : a.length > 0)
    (hb : Canon b) (h : a.length < b.length) : val a < val b := by
  have h1 := val_lt a ha
  have h2 := Canon_val_ge hb (by omega)
  have h3 : u64_mod ^ a.length ≤ u64_mod ^ (b.length - 1) := pow_le_pow_u64 (by omega)
  omega

theorem eq_of_val_eq : ∀ (a b : List Nat), Words a → Words b → a.length = b.length →
    val a = val b → a = b
  | [], [], _, _, _, _ => rfl
  | [], _ :: _, _, _, hl, _ => by simp at hl
  | _ :: _, [], _, _, hl, _ => by simp at hl
  | x :: xs, y :: ys, ha, hb, hl, hv => by
    obtain ⟨hx, hxs⟩ := Words_cons.1 ha
    obtain ⟨hy, hys⟩ := Words_cons.1 hb
    rw [val_cons, val_cons] at hv
    have hx' : x % u64_mod = x := Nat.mod_eq_of_lt hx
    have hy' : y % u64_mod = y := Nat.mod_eq_of_lt hy
    have hm := congrArg (· % u64_mod) hv
    simp only [Nat.add_mul_mod_self_left, hx', hy'] at hm
    subst hm
    have hv' : val xs = val ys :=
      Nat.eq_of_mul_eq_mul_left u64_mod_pos (Nat.add_left_cancel hv)
    rw [eq_of_val_eq xs ys hxs hys (by simpa using hl) hv']

/-- Canonical word lists are determined by the number they represent. -/
theorem Canon_unique {a b : List Nat} (ha : Words a) (hb : Words b) (ca : Canon a)
    (cb : Canon b) (hv : val a = val b) : a = b := by
  apply eq_of_val_eq a b ha hb _ hv
  rcases Nat.lt_trichotomy a.length b.length with h | h | h
  · have := Canon_val_lt_of_length_lt ha ca.1 cb h; omega
  · exact h
  · have := Canon_val_lt_of_length_lt hb cb.1 ca h; omega

theorem val_take_succ {l : List Nat} {s x : Nat} (h : l[s]? = some x) :
    val (l.take (s + 1)) = val (l.take s) + x * u64_mod ^ s := by
  have hs : s < l.length := by
    rcases List.getElem?_eq_some.1 h with ⟨hs, _⟩
    exact hs
  rw [List.take_succ, h, Option.toList_some, val_append_one, List.length_take,
    Nat.min_eq_left (by omega)]

theorem Words_take {l : List Nat} (h : Words l) (s : Nat) : Words (l.take s) :=
  fun w hw => h w (List.mem_of_mem_take hw)

theorem lt_loop_spec (a b : List Nat) (ha : Words a) (hb : Words b) :
    ∀ s, s ≤ a.length → s ≤ b.length →
      lt_loop a b s = some (decide (val (a.take s) < val (b.take s)))
  | 0, _, _ => by simp [lt_loop, val_nil]
  | s + 1, h1, h2 => by
    have hx : a[s]? = some a[s] := by simp [show s < a.length by omega]
    have hy : b[s]? = some b[s] := by simp [show s < b.length by omega]
    have ih := lt_loop_spec a b ha hb s (by omega) (by omega)
    have va := val_lt _ (Words_take ha s)
    have vb := val_lt _ (Words_take hb s)
    rw [List.length_take, Nat.min_eq_left (by omega)] at va vb
    simp only [lt_loop, hx, hy]
    rw [val_take_succ hx, val_take_succ hy]
    generalize a[s] = x
    generalize b[s] = y
    generalize val (List.take s a) = p at *
    generalize val (List.take s b) = q at *
    generalize u64_mod ^ s = P at *
    by_cases hlt : x < y
    · rw [if_pos hlt]
      have : (x + 1) * P ≤ y * P := Nat.mul_le_mul_right _ hlt
      rw [Nat.add_mul, Nat.one_mul] at this
      have : p + x * P < q + y * P := by omega
      simp [this]
    · rw [if_neg hlt]
      by_cases hgt : x > y
      · rw [if_pos hgt]
        have : (y + 1) * P ≤ x * P := Nat.mul_le_mul_right _ hgt
        rw [Nat.add_mul, Nat.one_mul] at this
        have : ¬ p + x * P < q + y * P := by omega
        simp [this]
      · rw [if_neg hgt, ih]
        have : x = y := by omega
        subst this
        congr 1
        simp

theorem std_equal_spec : ∀ (a b : List Nat), a.length = b.length →
    std_equal a b = some (decide (a = b))
  | [], [], _ => by simp [std_equal]
  | [], _ :: _, hl => by simp at hl
  | _ :: _, [], hl => by simp at hl
  | x :: xs, y :: ys, hl => by
    have ih := std_equal_spec xs ys (by simpa using hl)
    by_cases h : x = y
    · simp [std_equal, h, ih]
    · simp [std_equal, h]

theorem Canon_iff (c : large_int) : Canon c.data ↔ c.inv_I1 ∧ c.inv_I2 := Iff.rfl

theorem Canon_grow {d r : List Nat} (hw : Words r) (hc : Canon d)
    (hl : r.length = d.length ∨ (r.length = d.length + 1 ∧ r.getLast? = some 1))
    (hv : val d ≤ val r) : Canon r :=
  Canon_of_shape hw hc.1 hl (fun h => Nat.le_trans (Canon_val_ge hc h) hv)

theorem op_incr_spec (c : large_int) (hw : c.words_ok) (h1 : c.inv_I1) :
    ∃ r, c.op_incr = some r ∧ CarryPost c.data 0 r.data := by
  obtain ⟨r, hr, hp⟩ := incr_loop_spec (c.data.length + 1) c.data 0 hw h1 (by omega)
  refine ⟨⟨r⟩, ?_, hp⟩
  have h1' : c.data.length > 0 := h1
  simp only [op_incr, if_pos h1', hr, Option.map_some']

theorem op_add_assign_u64_spec (c : large_int) (u : Nat) (hw : c.words_ok) (h1 : c.inv_I1)
    (hu : u < u64_mod) :
    ∃ r, c.op_add_assign_u64 u = some r ∧ Words r.data ∧ val r.data = val c.data + u ∧
      (r.data.length = c.data.length ∨
        (r.data.length = c.data.length + 1 ∧ r.data.getLast? = some 1)) := by
  have h1' : c.data.length > 0 := h1
  have hd0 : c.data[0]? = some c.data[0] := by simp [h1']
  have hdb := Words_getElem? hw hd0
  generalize c.data[0] = d0 at hd0 hdb
  by_cases hfit : d0 + u < u64_mod
  · refine ⟨⟨c.data.set 0 (d0 + u)⟩, ?_, Words_set hw 0 hfit, ?_, Or.inl (by simp)⟩
    · simp only [op_add_assign_u64, if_pos h1', hd0, safe_radd_fits hdb hfit]
    · have hv := val_set c.data 0 (d0 + u) hd0
      simp only [pow_zero, Nat.mul_one] at hv
      show val (c.data.set 0 (d0 + u)) = val c.data + u
      omega
  · have hw1 : Words (c.data.set 0 (d0 + u - u64_mod)) := Words_set hw 0 (by omega)
    obtain ⟨r, hr, hwr, hvr, hlr⟩ := carry_loop_spec (c.data.length + 1)
      (c.data.set 0 (d0 + u - u64_mod)) 1 hw1 (by rw [List.length_set]; omega)
      (by rw [List.length_set]; omega)
    refine ⟨⟨r⟩, ?_, hwr, ?_, ?_⟩
    · simp only [op_add_assign_u64, if_pos h1', hd0, safe_radd_overflow hdb hfit,
        add_remainder_overflow hdb hu hfit, hr, Option.map_some']
    · have hv := val_set c.data 0 (d0 + u - u64_mod) hd0
      simp only [pow_zero, Nat.mul_one, pow_one] at hv hvr
      show val r = val c.data + u
      omega
    · rw [List.length_set] at hlr
      exact hlr

theorem op_add_assign_other_spec (a b : large_int) (ha : a.words_ok) (hb : b.words_ok) :
    ∃ r, a.op_add_assign (operand.other b) = some r ∧ Words r.data ∧
      val r.data = val a.data + val b.data ∧
      (r.data.length = max a.data.length b.data.length ∨
        (r.data.length = max a.data.length b.data.length + 1 ∧ r.data.getLast? = some 1)) := by
  obtain ⟨r, hr, h⟩ := add_words_spec (a := a.data) (o := b.data) ha hb
  exact ⟨⟨r⟩, hr, h⟩

theorem Canon_add {a b r : List Nat} (ca : Canon a) (cb : Canon b) (hw : Words r)
    (hv : val r = val a + val b)
    (hl : r.length = max a.length b.length ∨
      (r.length = max a.length b.length + 1 ∧ r.getLast? = some 1)) : Canon r := by
  apply Canon_of_shape hw (m := max a.length b.length) (by have := ca.1; omega) hl
  intro hm
  by_cases h : b.length ≤ a.length
  · rw [Nat.max_eq_left h] at hm ⊢
    have := Canon_val_ge ca hm
    omega
  · rw [Nat.max_eq_right (by omega)] at hm ⊢
    have := Canon_val_ge cb hm
    omega

theorem Canon_singleton (u : Nat) : Canon [u] := ⟨by simp, by simp⟩

theorem Words_singleton {u : Nat} (hu : u < u64_mod) : Words [u] := by
  intro w h
  simp at h
  rw [h]; exact hu

theorem asserts_ok_of_Canon {a b : large_int} (ca : Canon a.data) (cb : Canon b.data) :
    asserts_ok a b = true := by
  have a1 := ca.1
  have b1 := cb.1
  have a2 : a.data.length = 1 ∨ a.data.getLast?.getD 0 > 0 := by
    by_cases h : a.data.length = 1
    · exact Or.inl h
    · exact Or.inr (Nat.pos_of_ne_zero (ca.2 (by omega)))
  have b2 : b.data.length = 1 ∨ b.data.getLast?.getD 0 > 0 := by
    by_cases h : b.data.length = 1
    · exact Or.inl h
    · exact Or.inr (Nat.pos_of_ne_zero (cb.2 (by omega)))
  simp only [asserts_ok, Bool.and_eq_true, Bool.or_eq_true, decide_eq_true_eq]
  exact ⟨⟨⟨a1, b1⟩, a2⟩, b2⟩

theorem op_lt_spec {a b : large_int} (ha : a.words_ok) (hb : b.words_ok)
    (ca : Canon a.data) (cb : Canon b.data) :
    a.op_lt b = some (decide (a.value < b.value)) := by
  rw [value_eq_val, value_eq_val]
  simp only [op_lt, asserts_ok_of_Canon ca cb, if_true]
  by_cases h1 : a.data.length < b.data.length
  · have := Canon_val_lt_of_length_lt ha ca.1 cb h1
    simp [h1, this]
  · rw [if_neg h1]
    by_cases h2 : a.data.length > b.data.length
    · have := Canon_val_lt_of_length_lt hb cb.1 ca h2
      rw [if_pos h2]
      simp [Nat.lt_asymm this]
    · rw [if_neg h2, lt_loop_spec a.data b.data ha hb _ (Nat.le_refl _) (by omega)]
      have e : a.data.length = b.data.length := by omega
      rw [List.take_length, e, List.take_length]

theorem op_eq_spec {a b : large_int} (ha : a.words_ok) (hb : b.words_ok)
    (ca : Canon a.data) (cb : Canon b.data) :
    a.op_eq b = some (decide (a.value = b.value)) := by
  rw [value_eq_val, value_eq_val]
  simp only [op_eq, asserts_ok_of_Canon ca cb, if_true]
  by_cases h1 : a.data.length ≠ b.data.length
  · rw [if_pos h1]
    have : val a.data ≠ val b.data := by
      intro hv
      exact h1 (congrArg List.length (Canon_unique ha hb ca cb hv))
    simp [this]
  · rw [if_neg h1, std_equal_spec _ _ (by omega)]
    congr 1
    apply decide_eq_decide.2
    constructor
    · intro h; rw [h]
    · intro h; exact Canon_unique ha hb ca cb h

theorem op_incr_Canon {c r : large_int} (hw : c.words_ok) (hc : Canon c.data)
    (h : c.op_incr = some r) : Words r.data ∧ Canon r.data := by
  obtain ⟨r1, hr, hwr, hvr, hlr⟩ := op_incr_spec c hw hc.1
  rw [h] at hr
  cases hr
  exact ⟨hwr, Canon_grow hwr hc hlr (by omega)⟩

theorem op_add_assign_u64_Canon {c r : large_int} {u : Nat} (hw : c.words_ok)
    (hc : Canon c.data) (hu : u < u64_mod) (h : c.op_add_assign_u64 u = some r) :
    Words r.data ∧ Canon r.data := by
  obtain ⟨r1, hr, hwr, hvr, hlr⟩ := op_add_assign_u64_spec c u hw hc.1 hu
  rw [h] at hr
  cases hr
  exact ⟨hwr, Canon_grow hwr hc hlr (by omega)⟩

theorem op_add_assign_Canon {a b r : large_int} (ha : a.words_ok) (hb : b.words_ok)
    (ca : Canon a.data) (cb : Canon b.data)
    (h : a.op_add_assign (operand.other b) = some r) : Words r.data ∧ Canon r.data := by
  obtain ⟨r1, hr, hwr, hvr, hlr⟩ := op_add_assign_other_spec a b ha hb
  rw [h] at hr
  cases hr
  exact ⟨hwr, Canon_add ca cb hwr hvr hlr⟩

theorem Reachable_Canon {c : large_int} (h : Reachable c) : Words c.data ∧ Canon c.data := by
  induction h with
  | ctor_default => exact ⟨Words_singleton u64_mod_pos, Canon_singleton 0⟩
  | ctor v hv => exact ⟨Words_singleton hv, Canon_singleton v⟩
  | op_assign c o ho => exact ⟨Words_singleton ho, Canon_singleton o⟩
  | op_incr _ h ih => exact op_incr_Canon ih.1 ih.2 h
  | op_add_assign_u64 o ho _ h ih => exact op_add_assign_u64_Canon ih.1 ih.2 ho h
  | op_add_assign _ _ h ih1 ih2 => exact op_add_assign_Canon ih1.1 ih2.1 ih1.2 ih2.2 h
  | op_add_assign_self _ h ih => exact op_add_assign_Canon ih.1 ih.1 ih.2 ih.2 h

theorem incr_times_spec : ∀ (n : Nat) (c : large_int), c.words_ok → c.inv_I1 →
    ∃ r, incr_times n c = some r ∧ Words r.data ∧ val r.data = val c.data + n ∧
      (Canon c.data → Canon r.data)
  | 0, c, hw, _ => ⟨c, rfl, hw, rfl, id⟩
  | n + 1, c, hw, h1 => by
    obtain ⟨r1, hr1, hw1, hv1, hl1⟩ := op_incr_spec c hw h1
    have h11 : r1.inv_I1 := by
      have h1' : c.data.length > 0 := h1
      show r1.data.length > 0
      omega
    obtain ⟨r, hr, hwr, hvr, hcr⟩ := incr_times_spec n r1 hw1 h11
    refine ⟨r, ?_, hwr, ?_, fun hc => hcr (op_incr_Canon hw hc hr1).2⟩
    · simp only [incr_times, hr1, hr]
    · simp only [pow_zero] at hv1
      omega

/-- C1: for counters `a` and `b` (`b` another object than `a`), `a += b` returns and
leaves `a` with value `value(a) + value(b)`, whatever the two lengths are; this holds even
without assuming that either has a word. -/
theorem C1_add_assign_exact (a b : large_int) (ha : a.words_ok) (hb : b.words_ok) :
    ∃ r, a.op_add_assign (operand.other b) = some r ∧ r.words_ok ∧
      r.value = a.value + b.value := by
  obtain ⟨r, hr, hwr, hvr, _⟩ := op_add_assign_other_spec a b ha hb
  exact ⟨r, hr, hwr, by rw [value_eq_val, value_eq_val, value_eq_val]; exact hvr⟩

theorem C1_add_assign_exact_witness :
    ∃ r, (large_int.mk [u64_max, u64_max]).op_add_assign
        (operand.other (large_int.mk [1, u64_max, u64_max])) = some r ∧ r.words_ok ∧
      r.value = (large_int.mk [u64_max, u64_max]).value
        + (large_int.mk [1, u64_max, u64_max]).value :=
  C1_add_assign_exact ⟨[u64_max, u64_max]⟩ ⟨[1, u64_max, u64_max]⟩ (by decide) (by decide)

/-- C2: for a counter `c` with at least one word, `n` successive `operator++` return and
leave the value `value(c) + n`; and when `c` is `large_int(v)` with `v + n <= 2^64 - 1` the
result compares equal under `operator==` to `large_int(v + n)`. -/
theorem C2_incr_times_exact (c : large_int) (n : Nat) (hw : c.words_ok) (h1 : c.inv_I1) :
    ∃ r, incr_times n c = some r ∧ r.value = c.value + n ∧
      ∀ v, c = ctor v → v + n ≤ u64_max → r.op_eq (ctor (v + n)) = some true := by
  obtain ⟨r, hr, hwr, hvr, hcr⟩ := incr_times_spec n c hw h1
  refine ⟨r, hr, by rw [value_eq_val, value_eq_val]; exact hvr, ?_⟩
  intro v hc hvn
  subst hc
  have hb : v + n < u64_mod := by have := u64_max_succ; omega
  have cr : Canon r.data := hcr (Canon_singleton v)
  have hw2 : (ctor (v + n)).words_ok := Words_singleton hb
  rw [op_eq_spec hwr hw2 cr (Canon_singleton (v + n)), value_eq_val, value_eq_val, hvr]
  simp [ctor, val]

theorem C2_incr_times_exact_witness :
    ∃ r, incr_times 3 (ctor (u64_max - 1)) = some r ∧
      r.value = (ctor (u64_max - 1)).value + 3 ∧
      ∀ v, ctor (u64_max - 1) = ctor v → v + 3 ≤ u64_max →
        r.op_eq (ctor (v + 3)) = some true :=
  C2_incr_times_exact (ctor (u64_max - 1)) 3 (by decide) (by decide)

/-- C3: for a counter `c` with at least one word and a 64-bit `u`, `c += u` returns and
leaves the value `value(c) + u`; the counter `[0, 1]` plus `5` is `[5, 1]`, of value
`2^64 + 5`. -/
theorem C3_add_assign_u64_exact (c : large_int) (u : Nat) (hw : c.words_ok) (h1 : c.inv_I1)
    (hu : u < u64_mod) :
    (∃ r, c.op_add_assign_u64 u = some r ∧ r.words_ok ∧ r.value = c.value + u) ∧
      (large_int.mk [0, 1]).op_add_assign_u64 5 = some ⟨[5, 1]⟩ ∧
      (large_int.mk [5, 1]).value = 2 ^ 64 + 5 := by
  obtain ⟨r, hr, hwr, hvr, _⟩ := op_add_assign_u64_spec c u hw h1 hu
  refine ⟨⟨r, hr, hwr, by rw [value_eq_val, value_eq_val]; exact hvr⟩, by decide, by decide⟩

theorem C3_add_assign_u64_exact_witness :
    ∃ r, (large_int.mk [u64_max, u64_max]).op_add_assign_u64 u64_max = some r ∧ r.words_ok ∧
      r.value = (large_int.mk [u64_max, u64_max]).value + u64_max :=
  (C3_add_assign_u64_exact ⟨[u64_max, u64_max]⟩ u64_max (by decide) (by decide) (by decide)).1

/-- C4: every counter reachable from `large_int()`, `large_int(u)` or `operator=(u)` through
`operator++`, `+= u` and `+= o` (with `o` reachable, or `o` the counter itself) has at least
one word (I1) and, when it has more than one word, a non-zero last word (I2). -/
theorem C4_reachable_canonical (c : large_int) (h : Reachable c) : c.inv_I1 ∧ c.inv_I2 :=
  (Reachable_Canon h).2

theorem C4_reachable_canonical_witness :
    (large_int.mk [0, 1]).inv_I1 ∧ (large_int.mk [0, 1]).inv_I2 :=
  C4_reachable_canonical ⟨[0, 1]⟩
    (Reachable.op_incr (Reachable.ctor u64_max (by decide)) (by decide))

theorem op_lt_u64_spec {c : large_int} {u : Nat} (hw : c.words_ok) (hc : Canon c.data)
    (hu : u < u64_mod) : c.op_lt_u64 u = some (decide (c.value < u)) := by
  have h1 : c.data.length > 0 := hc.1
  rw [value_eq_val]
  by_cases hl : c.data.length = 1
  · have hd0 : c.data[0]? = some c.data[0] := by simp [h1]
    have hv : val c.data = c.data[0] := by
      obtain ⟨l⟩ := c
      match l, hl with
      | [x], _ => simp [val]
    simp only [op_lt_u64, if_pos h1, if_pos hl, hd0, hv]
  · have := Canon_val_ge hc (by omega)
    have hp : u64_mod ^ 1 ≤ u64_mod ^ (c.data.length - 1) := pow_le_pow_u64 (by omega)
    rw [pow_one] at hp
    have hn : ¬ val c.data < u := by omega
    simp only [op_lt_u64, if_pos h1, if_neg hl, hn, decide_False]

theorem op_eq_u64_spec {c : large_int} {u : Nat} (hw : c.words_ok) (hc : Canon c.data)
    (hu : u < u64_mod) : c.op_eq_u64 u = some (decide (c.value = u)) := by
  have h1 : c.data.length > 0 := hc.1
  rw [value_eq_val]
  by_cases hl : c.data.length = 1
  · have hd0 : c.data[0]? = some c.data[0] := by simp [h1]
    have hv : val c.data = c.data[0] := by
      obtain ⟨l⟩ := c
      match l, hl with
      | [x], _ => simp [val]
    simp only [op_eq_u64, if_pos h1, if_pos hl, hd0, hv]
  · have := Canon_val_ge hc (by omega)
    have hp : u64_mod ^ 1 ≤ u64_mod ^ (c.data.length - 1) := pow_le_pow_u64 (by omega)
    rw [pow_one] at hp
    have hn : ¬ val c.data = u := by omega
    simp only [op_eq_u64, if_pos h1, if_neg hl, hn, decide_False]

theorem op_gt_u64_spec {c : large_int} {u : Nat} (hw : c.words_ok) (hc : Canon c.data)
    (hu : u < u64_mod) : c.op_gt_u64 u = some (decide (c.value > u)) := by
  have h1 : c.data.length > 0 := hc.1
  rw [value_eq_val]
  by_cases hl : c.data.length = 1
  · have hd0 : c.data[0]? = some c.data[0] := by simp [h1]
    have hv : val c.data = c.data[0] := by
      obtain ⟨l⟩ := c
      match l, hl with
      | [x], _ => simp [val]
    have hn : ¬ c.data.length > 1 := by omega
    simp only [op_gt_u64, if_pos h1, if_pos (Or.inl hl), if_neg hn, hd0, hv]
  · have := Canon_val_ge hc (by omega)
    have hp : u64_mod ^ 1 ≤ u64_mod ^ (c.data.length - 1) := pow_le_pow_u64 (by omega)
    rw [pow_one] at hp
    have hg : val c.data > u := by omega
    have hlast : c.data.length = 1 ∨ c.data.getLast?.getD 0 > 0 :=
      Or.inr (Nat.pos_of_ne_zero (hc.2 (by omega)))
    have hgt : c.data.length > 1 := by omega
    simp only [op_gt_u64, if_pos h1, if_pos hlast, if_pos hgt, hg, decide_True]

/-- C5: for counters `a`, `b` satisfying I1 and I2 the six counter-vs-counter operators
return the corresponding comparison of `value(a)` and `value(b)`; hence exactly one of
`a < b`, `a == b`, `b < a` returns true. -/
theorem C5_compare_agrees_with_value (a b : large_int) (ha : a.words_ok) (hb : b.words_ok)
    (a1 : a.inv_I1) (a2 : a.inv_I2) (b1 : b.inv_I1) (b2 : b.inv_I2) :
    a.op_lt b = some (decide (a.value < b.value)) ∧
    a.op_eq b = some (decide (a.value = b.value)) ∧
    op_gt a b = some (decide (a.value > b.value)) ∧
    op_le a b = some (decide (a.value ≤ b.value)) ∧
    op_ge a b = some (decide (a.value ≥ b.value)) ∧
    op_ne a b = some (decide (a.value ≠ b.value)) ∧
    exactly_one (a.op_lt b = some true) (a.op_eq b = some true) (b.op_lt a = some true) := by
  have ca : Canon a.data := ⟨a1, a2⟩
  have cb : Canon b.data := ⟨b1, b2⟩
  have hlt := op_lt_spec ha hb ca cb
  have hgt := op_lt_spec hb ha cb ca
  have heq := op_eq_spec ha hb ca cb
  refine ⟨hlt, heq, hgt, ?_, ?_, ?_, ?_⟩
  · simp only [op_le, hgt, Option.map_some', Option.some.injEq]
    by_cases h : b.value < a.value
    · simp [h]
    · simp [h, Nat.le_of_not_lt h]
  · simp only [op_ge, hlt, Option.map_some', Option.some.injEq]
    by_cases h : a.value < b.value
    · simp [h]
    · simp [h, Nat.le_of_not_lt h]
  · simp only [op_ne, heq, Option.map_some', Option.some.injEq]
    by_cases h : a.value = b.value
    · simp [h]
    · simp [h]
  · rw [hlt, heq, hgt]
    simp only [exactly_one, Option.some.injEq, decide_eq_true_eq]
    omega

theorem C5_compare_agrees_with_value_witness :
    (large_int.mk [7, 1]).op_lt ⟨[3, 2]⟩
      = some (decide ((large_int.mk [7, 1]).value < (large_int.mk [3, 2]).value)) :=
  (C5_compare_agrees_with_value ⟨[7, 1]⟩ ⟨[3, 2]⟩ (by decide) (by decide) (by decide)
    (by decide) (by decide) (by decide)).1

/-- C6: for a counter `c` satisfying I1 and I2 and a 64-bit `u`, `c < u`, `c == u` and
`c > u` return the comparison of `value(c)` with `u`; a counter of more than one word is
`>` every `u`, and neither `<` nor `==` to it. -/
theorem C6_scalar_compare_agrees_with_value (c : large_int) (u : Nat) (hw : c.words_ok)
    (hu : u < u64_mod) (h1 : c.inv_I1) (h2 : c.inv_I2) :
    c.op_lt_u64 u = some (decide (c.value < u)) ∧
    c.op_eq_u64 u = some (decide (c.value = u)) ∧
    c.op_gt_u64 u = some (decide (c.value > u)) ∧
    (c.data.length > 1 →
      c.op_gt_u64 u = some true ∧ c.op_lt_u64 u = some false ∧ c.op_eq_u64 u = some false) := by
  have hc : Canon c.data := ⟨h1, h2⟩
  refine ⟨op_lt_u64_spec hw hc hu, op_eq_u64_spec hw hc hu, op_gt_u64_spec hw hc hu, ?_⟩
  intro hl
  have := Canon_val_ge hc hl
  have hp : u64_mod ^ 1 ≤ u64_mod ^ (c.data.length - 1) := pow_le_pow_u64 (by omega)
  rw [pow_one, ← value_eq_val] at *
  rw [op_lt_u64_spec hw hc hu, op_eq_u64_spec hw hc hu, op_gt_u64_spec hw hc hu]
  simp only [Option.some.injEq, decide_eq_true_eq, decide_eq_false_iff_not]
  omega

theorem C6_scalar_compare_agrees_with_value_witness :
    (large_int.mk [0, 1]).op_gt_u64 u64_max
      = some (decide ((large_int.mk [0, 1]).value > u64_max)) :=
  (C6_scalar_compare_agrees_with_value ⟨[0, 1]⟩ u64_max (by decide) (by decide) (by decide)
    (by decide)).2.2.1

/-- C7, as stated, fails: the counter with words `[5, 0]` has at least one word, yet against
`u = 3` neither `<` nor `==` returns true and `>` stops at its assertion
`data.size() == 1 || data.back() > 0u`, so none of the three returns true. -/
theorem C7_counterexample :
    (large_int.mk [5, 0]).words_ok ∧ (large_int.mk [5, 0]).inv_I1 ∧ 3 < u64_mod ∧
      (large_int.mk [5, 0]).op_gt_u64 3 = none ∧
      ¬ exactly_one ((large_int.mk [5, 0]).op_lt_u64 3 = some true)
        ((large_int.mk [5, 0]).op_eq_u64 3 = some true)
        ((large_int.mk [5, 0]).op_gt_u64 3 = some true) := by
  refine ⟨by decide, by decide, by decide, by decide, ?_⟩
  have e1 : (large_int.mk [5, 0]).op_lt_u64 3 = some false := by decide
  have e2 : (large_int.mk [5, 0]).op_eq_u64 3 = some false := by decide
  have e3 : (large_int.mk [5, 0]).op_gt_u64 3 = none := by decide
  rw [e1, e2, e3]
  simp [exactly_one]

/-- C7, amended: for a counter `c` satisfying I1 and I2 and a 64-bit `u`, exactly one of
`c < u`, `c == u`, `c > u` returns true. -/
theorem C7_scalar_trichotomy (c : large_int) (u : Nat) (hw : c.words_ok) (hu : u < u64_mod)
    (h1 : c.inv_I1) (h2 : c.inv_I2) :
    exactly_one (c.op_lt_u64 u = some true) (c.op_eq_u64 u = some true)
      (c.op_gt_u64 u = some true) := by
  have hc : Canon c.data := ⟨h1, h2⟩
  rw [op_lt_u64_spec hw hc hu, op_eq_u64_spec hw hc hu, op_gt_u64_spec hw hc hu]
  simp only [exactly_one, Option.some.injEq, decide_eq_true_eq]
  omega

theorem C7_scalar_trichotomy_witness :
    exactly_one ((large_int.mk [5, 2]).op_lt_u64 3 = some true)
      ((large_int.mk [5, 2]).op_eq_u64 3 = some true)
      ((large_int.mk [5, 2]).op_gt_u64 3 = some true) :=
  C7_scalar_trichotomy ⟨[5, 2]⟩ 3 (by decide) (by decide) (by decide) (by decide)

theorem op_eq_self {x : large_int} (hw : x.words_ok) (hc : Canon x.data) :
    x.op_eq x = some true := by
  rw [op_eq_spec hw hw hc hc]
  simp

/-- C8: for counters `a`, `b` satisfying I1 and I2, `x = a; x += b` and `y = b; y += a`
return the same word sequence, and `x == y` returns true. -/
theorem C8_add_commutative (a b : large_int) (ha : a.words_ok) (hb : b.words_ok)
    (a1 : a.inv_I1) (a2 : a.inv_I2) (b1 : b.inv_I1) (b2 : b.inv_I2) :
    ∃ x y, a.op_add_assign (operand.other b) = some x ∧
      b.op_add_assign (operand.other a) = some y ∧ x.data = y.data ∧
      x.op_eq y = some true := by
  have ca : Canon a.data := ⟨a1, a2⟩
  have cb : Canon b.data := ⟨b1, b2⟩
  obtain ⟨x, hx, hwx, hvx, hlx⟩ := op_add_assign_other_spec a b ha hb
  obtain ⟨y, hy, hwy, hvy, hly⟩ := op_add_assign_other_spec b a hb ha
  have cx := Canon_add ca cb hwx hvx hlx
  have cy := Canon_add cb ca hwy hvy hly
  have e : x.data = y.data := Canon_unique hwx hwy cx cy (by omega)
  have exy : x = y := by
    cases x; cases y; simp only [large_int.mk.injEq]; exact e
  refine ⟨x, y, hx, hy, e, ?_⟩
  rw [← exy]
  exact op_eq_self hwx cx

theorem C8_add_commutative_witness :
    ∃ x y, (large_int.mk [u64_max, 1]).op_add_assign (operand.other ⟨[1, u64_max, 7]⟩) = some x ∧
      (large_int.mk [1, u64_max, 7]).op_add_assign (operand.other ⟨[u64_max, 1]⟩) = some y ∧
      x.data = y.data ∧ x.op_eq y = some true :=
  C8_add_commutative ⟨[u64_max, 1]⟩ ⟨[1, u64_max, 7]⟩ (by decide) (by decide) (by decide)
    (by decide) (by decide) (by decide)

/-- C9: for counters `a`, `b`, `c` satisfying I1 and I2, `x = a; x += b; x += c` and
`t = b; t += c; y = a; y += t` return the same word sequence, and `x == y` returns true. -/
theorem C9_add_associative (a b c : large_int) (ha : a.words_ok) (hb : b.words_ok)
    (hc : c.words_ok) (a1 : a.inv_I1) (a2 : a.inv_I2) (b1 : b.inv_I1) (b2 : b.inv_I2)
    (c1 : c.inv_I1) (c2 : c.inv_I2) :
    ∃ x1 x t y, a.op_add_assign (operand.other b) = some x1 ∧
      x1.op_add_assign (operand.other c) = some x ∧
      b.op_add_assign (operand.other c) = some t ∧
      a.op_add_assign (operand.other t) = some y ∧ x.data = y.data ∧
      x.op_eq y = some true := by
  have ca : Canon a.data := ⟨a1, a2⟩
  have cb : Canon b.data := ⟨b1, b2⟩
  have cc : Canon c.data := ⟨c1, c2⟩
  obtain ⟨x1, hx1, hwx1, hvx1, hlx1⟩ := op_add_assign_other_spec a b ha hb
  have cx1 := Canon_add ca cb hwx1 hvx1 hlx1
  obtain ⟨x, hx, hwx, hvx, hlx⟩ := op_add_assign_other_spec x1 c hwx1 hc
  have cx := Canon_add cx1 cc hwx hvx hlx
  obtain ⟨t, ht, hwt, hvt, hlt⟩ := op_add_assign_other_spec b c hb hc
  have ct := Canon_add cb cc hwt hvt hlt
  obtain ⟨y, hy, hwy, hvy, hly⟩ := op_add_assign_other_spec a t ha hwt
  have cy := Canon_add ca ct hwy hvy hly
  have e : x.data = y.data := Canon_unique hwx hwy cx cy (by omega)
  have exy : x = y := by
    cases x; cases y; simp only [large_int.mk.injEq]; exact e
  refine ⟨x1, x, t, y, hx1, hx, ht, hy, e, ?_⟩
  rw [← exy]
  exact op_eq_self hwx cx

theorem C9_add_associative_witness :
    ∃ x1 x t y, (large_int.mk [u64_max]).op_add_assign (operand.other ⟨[1, u64_max]⟩) = some x1 ∧
      x1.op_add_assign (operand.other ⟨[u64_max, u64_max, u64_max]⟩) = some x ∧
      (large_int.mk [1, u64_max]).op_add_assign
        (operand.other ⟨[u64_max, u64_max, u64_max]⟩) = some t ∧
      (large_int.mk [u64_max]).op_add_assign (operand.other t) = some y ∧ x.data = y.data ∧
      x.op_eq y = some true :=
  C9_add_associative ⟨[u64_max]⟩ ⟨[1, u64_max]⟩ ⟨[u64_max, u64_max, u64_max]⟩ (by decide)
    (by decide) (by decide) (by decide) (by decide) (by decide) (by decide) (by decide)
    (by decide)

/-- C10: for a counter `a` (with at least one word, though this is not needed), `a += a`
returns and leaves `a` with value `2 * value(a)`, with the same word sequence as adding
another object holding the same words. -/
theorem C10_self_add_doubles (a : large_int) (ha : a.words_ok) :
    ∃ r, a.op_add_assign operand.self = some r ∧ r.value = 2 * a.value ∧
      a.op_add_assign (operand.other ⟨a.data⟩) = some r := by
  obtain ⟨r, hr, hwr, hvr, _⟩ := op_add_assign_other_spec a a ha ha
  refine ⟨r, hr, ?_, hr⟩
  rw [value_eq_val, value_eq_val, hvr]
  omega

theorem C10_self_add_doubles_witness :
    ∃ r, (large_int.mk [u64_max, u64_max]).op_add_assign operand.self = some r ∧
      r.value = 2 * (large_int.mk [u64_max, u64_max]).value ∧
      (large_int.mk [u64_max, u64_max]).op_add_assign
        (operand.other ⟨(large_int.mk [u64_max, u64_max]).data⟩) = some r :=
  C10_self_add_doubles ⟨[u64_max, u64_max]⟩ (by decide)

theorem val_replicate_zero : ∀ k : Nat, val (List.replicate k 0) = 0
  | 0 => rfl
  | k + 1 => by rw [List.replicate_succ, val_cons, val_replicate_zero k]; simp

theorem val_replicate_max : ∀ k : Nat, val (List.replicate k u64_max) + 1 = u64_mod ^ k
  | 0 => by simp [val_nil]
  | k + 1 => by
    have ih := val_replicate_max k
    rw [List.replicate_succ, val_cons, pow_succ, ← ih, Nat.add_mul, Nat.one_mul,
      Nat.mul_comm (val (List.replicate k u64_max)) u64_mod]
    have := u64_max_succ
    omega

theorem Words_replicate {x : Nat} (hx : x < u64_mod) (k : Nat) : Words (List.replicate k x) := by
  intro w hw
  rw [List.eq_of_mem_replicate hw]
  exact hx

/-- Every word is `2^64 - 1` when the represented number is the largest of its length. -/
theorem all_max_of_val {l : List Nat} (hw : Words l) (hv : val l + 1 = u64_mod ^ l.length) :
    ∀ w ∈ l, w = u64_max := by
  have e : l = List.replicate l.length u64_max := by
    apply eq_of_val_eq l _ hw (Words_replicate u64_max_lt _) (by simp)
    have := val_replicate_max l.length
    omega
  intro w hw'
  rw [e] at hw'
  exact List.eq_of_mem_replicate hw'

/-- The length of a mutation result is read off its value. -/
theorem shape_length {r : List Nat} {m : Nat} (hw : Words r)
    (hl : r.length = m ∨ (r.length = m + 1 ∧ r.getLast? = some 1)) :
    r.length = m + 1 ↔ u64_mod ^ m ≤ val r := by
  rcases hl with hl | ⟨hl, hlast⟩
  · have := val_lt r hw
    rw [hl] at this
    constructor
    · intro h; omega
    · intro h; omega
  · have h0 : r.getLast?.getD 0 ≠ 0 := by rw [hlast]; simp
    have := val_ge_of_last_ne_zero (by omega) h0
    rw [hl, Nat.add_sub_cancel] at this
    exact ⟨fun _ => this, fun _ => hl⟩

/-- Two mutation results of the same source length and the same value are equal. -/
theorem shape_unique {r1 r2 : List Nat} {m : Nat} (hw1 : Words r1) (hw2 : Words r2)
    (hl1 : r1.length = m ∨ (r1.length = m + 1 ∧ r1.getLast? = some 1))
    (hl2 : r2.length = m ∨ (r2.length = m + 1 ∧ r2.getLast? = some 1))
    (hv : val r1 = val r2) : r1 = r2 := by
  apply eq_of_val_eq r1 r2 hw1 hw2 _ hv
  have s1 := shape_length hw1 hl1
  have s2 := shape_length hw2 hl2
  rw [hv] at s1
  by_cases h : u64_mod ^ m ≤ val r2
  · rw [s1.2 h, s2.2 h]
  · have n1 : r1.length ≠ m + 1 := fun e => h (s1.1 e)
    have n2 : r2.length ≠ m + 1 := fun e => h (s2.1 e)
    rcases hl1 with a | ⟨a, _⟩
    · rcases hl2 with b | ⟨b, _⟩
      · omega
      · exact absurd b n2
    · exact absurd a n1

theorem op_le_u64_spec {c : large_int} {u : Nat} (hw : c.words_ok) (hc : Canon c.data)
    (hu : u < u64_mod) : op_le_u64 c u = some (decide (c.value ≤ u)) := by
  simp only [op_le_u64, op_gt_u64_spec hw hc hu, Option.map_some', Option.some.injEq]
  by_cases h : c.value > u
  · simp [h]
  · simp [h, Nat.le_of_not_lt h]

theorem op_ge_u64_spec {c : large_int} {u : Nat} (hw : c.words_ok) (hc : Canon c.data)
    (hu : u < u64_mod) : op_ge_u64 c u = some (decide (c.value ≥ u)) := by
  simp only [op_ge_u64, op_lt_u64_spec hw hc hu, Option.map_some', Option.some.injEq]
  by_cases h : c.value < u
  · simp [h]
  · simp [h, Nat.le_of_not_lt h]

/-- C11: for a counter `c` satisfying I1 and I2 and a 64-bit `u`: `c <= u` returns the
disjunction of `c < u` and `c == u`, which is `value(c) <= u`; `c >= u` returns the
disjunction of `c > u` and `c == u`, which is `value(c) >= u`; `c != u` returns the negation
of `c == u`; and `u < c`, `u > c`, `u <= c`, `u >= c`, `u == c`, `u != c` return what
`c > u`, `c < u`, `c >= u`, `c <= u`, `c == u`, `c != u` return. -/
theorem C11_scalar_derived_consistent (c : large_int) (u : Nat) (hw : c.words_ok)
    (hu : u < u64_mod) (h1 : c.inv_I1) (h2 : c.inv_I2) :
    (∃ lt eq gt, c.op_lt_u64 u = some lt ∧ c.op_eq_u64 u = some eq ∧ c.op_gt_u64 u = some gt ∧
      op_le_u64 c u = some (lt || eq) ∧ op_le_u64 c u = some (decide (c.value ≤ u)) ∧
      op_ge_u64 c u = some (gt || eq) ∧ op_ge_u64 c u = some (decide (c.value ≥ u)) ∧
      c.op_ne_u64 u = some (!eq)) ∧
    u64_op_lt u c = c.op_gt_u64 u ∧ u64_op_gt u c = c.op_lt_u64 u ∧
    u64_op_le u c = op_ge_u64 c u ∧ u64_op_ge u c = op_le_u64 c u ∧
    u64_op_eq u c = c.op_eq_u64 u ∧ u64_op_ne u c = c.op_ne_u64 u := by
  have hc : Canon c.data := ⟨h1, h2⟩
  refine ⟨⟨_, _, _, op_lt_u64_spec hw hc hu, op_eq_u64_spec hw hc hu, op_gt_u64_spec hw hc hu,
    ?_, op_le_u64_spec hw hc hu, ?_, op_ge_u64_spec hw hc hu, ?_⟩, rfl, rfl, rfl, rfl, rfl, rfl⟩
  · rw [op_le_u64_spec hw hc hu, Option.some.injEq, ← Bool.decide_or]
    apply decide_eq_decide.2
    omega
  · rw [op_ge_u64_spec hw hc hu, Option.some.injEq, ← Bool.decide_or]
    apply decide_eq_decide.2
    omega
  · simp only [op_ne_u64, op_eq_u64_spec hw hc hu, Option.map_some']

theorem C11_scalar_derived_consistent_witness :
    op_le_u64 ⟨[u64_max, 3]⟩ u64_max
      = some (decide ((large_int.mk [u64_max, 3]).value ≤ u64_max)) :=
  match (C11_scalar_derived_consistent ⟨[u64_max, 3]⟩ u64_max (by decide) (by decide)
    (by decide) (by decide)).1 with
  | ⟨_, _, _, _, _, _, _, h, _⟩ => h

/-- C12: for `k >= 1`, the counter whose `k` words all equal `2^64 - 1`, incremented once,
has `k` zero words followed by a last word `1`; `large_int(2^64 - 1)` incremented once has
words `[0, 1]`. -/
theorem C12_carry_at_boundary (k : Nat) (hk : 1 ≤ k) :
    op_incr ⟨List.replicate k u64_max⟩ = some ⟨List.replicate k 0 ++ [1]⟩ ∧
    (List.replicate k 0 ++ [1]).length = k + 1 ∧
    op_incr (ctor u64_max) = some ⟨[0, 1]⟩ := by
  have hw : Words (List.replicate k u64_max) := Words_replicate u64_max_lt k
  obtain ⟨r, hr, hwr, hvr, hlr⟩ := op_incr_spec ⟨List.replicate k u64_max⟩ hw
    (by show (List.replicate k u64_max).length > 0; simp; omega)
  have hvm := val_replicate_max k
  simp only [pow_zero, List.length_replicate] at hvr hlr
  have hlen : r.data.length = k + 1 := (shape_length hwr hlr).2 (by omega)
  have hwe : Words (List.replicate k 0 ++ [1]) :=
    Words_append.2 ⟨Words_replicate u64_mod_pos k, Words_singleton one_lt_u64_mod⟩
  have e : r.data = List.replicate k 0 ++ [1] := by
    apply eq_of_val_eq _ _ hwr hwe (by simp [hlen])
    rw [val_append_one, val_replicate_zero, List.length_replicate]
    omega
  refine ⟨?_, by simp, by decide⟩
  rw [hr, ← e]

theorem C12_carry_at_boundary_witness :
    op_incr ⟨List.replicate 3 u64_max⟩ = some ⟨List.replicate 3 0 ++ [1]⟩ :=
  (C12_carry_at_boundary 3 (by decide)).1

theorem grows_incr_all_max {data r : List Nat} (hw : Words data) (hwr : Words r)
    (hv : val r = val data + 1)
    (hl : r.length = data.length ∨ (r.length = data.length + 1 ∧ r.getLast? = some 1))
    (hg : r.length = data.length + 1) : ∀ w ∈ data, w = u64_max := by
  have h1 := (shape_length hwr hl).1 hg
  have h2 := val_lt data hw
  exact all_max_of_val hw (by omega)

theorem grows_add_u64_all_max {data r : List Nat} {u : Nat} (hw : Words data)
    (h0 : data.length > 0) (hu : u < u64_mod) (hwr : Words r) (hv : val r = val data + u)
    (hl : r.length = data.length ∨ (r.length = data.length + 1 ∧ r.getLast? = some 1))
    (hg : r.length = data.length + 1) :
    u64_mod ≤ data.getD 0 0 + u ∧ ∀ w ∈ data.drop 1, w = u64_max := by
  have h1 := (shape_length hwr hl).1 hg
  match data, hw, h0, hv, h1 with
  | d0 :: rest, hw, _, hv, h1 =>
    obtain ⟨hd0, hwrest⟩ := Words_cons.1 hw
    have h2 := val_lt rest hwrest
    rw [hv, val_cons, List.length_cons, pow_succ] at h1
    have hmax : val rest + 1 = u64_mod ^ rest.length ∧ u64_mod ≤ d0 + u := by
      generalize u64_mod ^ rest.length = P at h1 h2
      generalize val rest = v at h1 h2
      simp only [u64_mod] at *
      omega
    refine ⟨by simpa using hmax.2, ?_⟩
    simp only [List.drop_succ_cons, List.drop_zero]
    exact all_max_of_val hwrest hmax.1

/-- C13: for a counter `c` with at least one word, `operator++`, `c += u` and `c += o`
return a counter with at least as many words; for `operator++` and `c += u` at most one
more, and one more only when every word from the carry's first index on (index 0 for
`operator++`; index 1, after word 0 overflowed, for `c += u`) was `2^64 - 1`. -/
theorem C13_never_shrinks (c : large_int) (hw : c.words_ok) (h1 : c.inv_I1) :
    (∃ r, c.op_incr = some r ∧ c.data.length ≤ r.data.length ∧
      r.data.length ≤ c.data.length + 1 ∧
      (r.data.length = c.data.length + 1 → ∀ w ∈ c.data, w = u64_max)) ∧
    (∀ u, u < u64_mod → ∃ r, c.op_add_assign_u64 u = some r ∧
      c.data.length ≤ r.data.length ∧ r.data.length ≤ c.data.length + 1 ∧
      (r.data.length = c.data.length + 1 →
        u64_mod ≤ c.data.getD 0 0 + u ∧ ∀ w ∈ c.data.drop 1, w = u64_max)) ∧
    (∀ o : large_int, o.words_ok → ∃ r, c.op_add_assign (operand.other o) = some r ∧
      c.data.length ≤ r.data.length) ∧
    (∃ r, c.op_add_assign operand.self = some r ∧ c.data.length ≤ r.data.length) := by
  refine ⟨?_, ?_, ?_, ?_⟩
  · obtain ⟨r, hr, hwr, hvr, hlr⟩ := op_incr_spec c hw h1
    rw [pow_zero] at hvr
    exact ⟨r, hr, by omega, by omega, grows_incr_all_max hw hwr hvr hlr⟩
  · intro u hu
    obtain ⟨r, hr, hwr, hvr, hlr⟩ := op_add_assign_u64_spec c u hw h1 hu
    exact ⟨r, hr, by omega, by omega, grows_add_u64_all_max hw h1 hu hwr hvr hlr⟩
  · intro o ho
    obtain ⟨r, hr, _, _, hlr⟩ := op_add_assign_other_spec c o hw ho
    exact ⟨r, hr, by omega⟩
  · obtain ⟨r, hr, _, _, hlr⟩ := op_add_assign_other_spec c c hw hw
    exact ⟨r, hr, by omega⟩

theorem C13_never_shrinks_witness :
    ∃ r, (large_int.mk [u64_max, u64_max]).op_incr = some r ∧
      (large_int.mk [u64_max, u64_max]).data.length ≤ r.data.length ∧
      r.data.length ≤ (large_int.mk [u64_max, u64_max]).data.length + 1 ∧
      (r.data.length = (large_int.mk [u64_max, u64_max]).data.length + 1 →
        ∀ w ∈ (large_int.mk [u64_max, u64_max]).data, w = u64_max) :=
  (C13_never_shrinks ⟨[u64_max, u64_max]⟩ (by decide) (by decide)).1

/-- C15: for a counter `c` with at least one word and a 64-bit `u`, the scalar `c += u`
returns the same word sequence as `c += large_int(u)`, and `operator++` returns the same
word sequence as `c += 1`. -/
theorem C15_paths_coincide (c : large_int) (u : Nat) (hw : c.words_ok) (h1 : c.inv_I1)
    (hu : u < u64_mod) :
    (∃ r, c.op_add_assign_u64 u = some r ∧
      c.op_add_assign (operand.other (ctor u)) = some r) ∧
    (∃ r, c.op_incr = some r ∧ c.op_add_assign_u64 1 = some r) := by
  have h1' : c.data.length > 0 := h1
  constructor
  · obtain ⟨r, hr, hwr, hvr, hlr⟩ := op_add_assign_u64_spec c u hw h1 hu
    obtain ⟨s, hs, hws, hvs, hls⟩ :=
      op_add_assign_other_spec c (ctor u) hw (Words_singleton hu)
    have hm : max c.data.length (ctor u).data.length = c.data.length := by
      show max c.data.length 1 = c.data.length
      omega
    rw [hm] at hls
    have hvu : val (ctor u).data = u := by
      show val [u] = u
      simp [val]
    have e : r.data = s.data := shape_unique hwr hws hlr hls (by omega)
    have ers : r = s := by
      cases r; cases s; simp only [large_int.mk.injEq]; exact e
    exact ⟨r, hr, by rw [ers]; exact hs⟩
  · obtain ⟨r, hr, hwr, hvr, hlr⟩ := op_incr_spec c hw h1
    obtain ⟨s, hs, hws, hvs, hls⟩ := op_add_assign_u64_spec c 1 hw h1 one_lt_u64_mod
    rw [pow_zero] at hvr
    have e : r.data = s.data := shape_unique hwr hws hlr hls (by omega)
    have ers : r = s := by
      cases r; cases s; simp only [large_int.mk.injEq]; exact e
    exact ⟨r, hr, by rw [ers]; exact hs⟩

theorem C15_paths_coincide_witness :
    ∃ r, (large_int.mk [7, u64_max]).op_add_assign_u64 u64_max = some r ∧
      (large_int.mk [7, u64_max]).op_add_assign (operand.other (ctor u64_max)) = some r :=
  (C15_paths_coincide ⟨[7, u64_max]⟩ u64_max (by decide) (by decide) (by decide)).1

/-- C16: for 64-bit `d` and `o`, `safe_radd(d, o)` returns false exactly when
`d + o >= 2^64`; in that case `add_remainder(d, o)` returns with `d` set to
`d + o - 2^64 = (d + o) mod 2^64`, and in each of its subtractions (`max - o`, `--d`,
`d -= tmp`) the subtrahend is at most the minuend, so none wraps around. -/
theorem C16_add_remainder_exact (d o : Nat) (hd : d < u64_mod) (ho : o < u64_mod) :
    ((safe_radd d o).1 = false ↔ u64_mod ≤ d + o) ∧
    (u64_mod ≤ d + o →
      add_remainder d o = some (d + o - u64_mod) ∧
      d + o - u64_mod = (d + o) % u64_mod ∧
      o ≤ u64_max ∧ wrap_sub u64_max o = u64_max - o ∧
      1 ≤ d ∧ wrap_sub d 1 = d - 1 ∧
      wrap_sub u64_max o ≤ wrap_sub d 1 ∧
      wrap_sub (wrap_sub d 1) (wrap_sub u64_max o) = d - 1 - (u64_max - o)) := by
  constructor
  · by_cases h : d + o < u64_mod
    · rw [safe_radd_fits hd h]
      simp
      omega
    · rw [safe_radd_overflow hd h]
      simp
      omega
  · intro h
    refine ⟨add_remainder_overflow hd ho (by omega), ?_, ?_, ?_, ?_, ?_, ?_, ?_⟩ <;>
      simp only [wrap_sub, u64_max, u64_mod] at * <;> omega

theorem C16_add_remainder_exact_witness :
    add_remainder u64_max 9 = some (u64_max + 9 - u64_mod) :=
  ((C16_add_remainder_exact u64_max 9 (by decide) (by decide)).2 (by decide)).1

/-- C17: for a 64-bit `t` and any `u` (64-bit in particular), `safe_radd(t, u)` returns
true iff `t + u <= 2^64 - 1`, then with `t` set to `t + u`, and otherwise returns false with
`t` unchanged; `safe_increment(t)` returns true iff `t < 2^64 - 1`, then with `t` set to
`t + 1`, and otherwise returns false with `t` unchanged. -/
theorem C17_safe_primitives (t u : Nat) (ht : t < u64_mod) :
    ((safe_radd t u).1 = true ↔ t + u ≤ u64_max) ∧
    (t + u ≤ u64_max → safe_radd t u = (true, t + u)) ∧
    (¬ t + u ≤ u64_max → safe_radd t u = (false, t)) ∧
    ((safe_increment t).1 = true ↔ t < u64_max) ∧
    (t < u64_max → safe_increment t = (true, t + 1)) ∧
    (¬ t < u64_max → safe_increment t = (false, t)) := by
  have hs := u64_max_succ
  have fits : t + u ≤ u64_max → safe_radd t u = (true, t + u) :=
    fun h => safe_radd_fits ht (by omega)
  have over : ¬ t + u ≤ u64_max → safe_radd t u = (false, t) :=
    fun h => safe_radd_overflow ht (by omega)
  have inc : t < u64_max → safe_increment t = (true, t + 1) := fun h => safe_increment_lt h
  have full : ¬ t < u64_max → safe_increment t = (false, t) :=
    fun h => (safe_increment_max ht h).1
  refine ⟨?_, fits, over, ?_, inc, full⟩
  · by_cases h : t + u ≤ u64_max
    · rw [fits h]; simp [h]
    · rw [over h]; simp [h]
  · by_cases h : t < u64_max
    · rw [inc h]; simp [h]
    · rw [full h]; simp [h]

theorem C17_safe_primitives_witness :
    safe_radd (u64_max - 4) 5 = (false, u64_max - 4) :=
  (C17_safe_primitives (u64_max - 4) 5 (by decide)).2.2.1 (by decide)

theorem double_loop_isSome {F : Type} (cast : Nat → F) (add mul : F → F → F) (pow2 : Nat → F) :
    ∀ (fuel : Nat) (data : List Nat) (i : Nat) (result : F), data.length - i ≤ fuel →
      1 ≤ fuel → (double_loop cast add mul pow2 fuel data i result).isSome = true
  | 0, _, _, _, _, h => by omega
  | fuel + 1, data, i, result, h1, _ => by
    by_cases hi : i + 1 < data.length
    · have hd : data[i + 1]? = some data[i + 1] := by simp [hi]
      simp only [double_loop, if_pos hi, hd]
      exact double_loop_isSome cast add mul pow2 fuel data (i + 1) _ (by omega) (by omega)
    · simp only [double_loop, if_neg hi, Option.isSome_some]

theorem op_double_isSome {F : Type} (cast : Nat → F) (add mul : F → F → F) (pow2 : Nat → F)
    (c : large_int) (h1 : c.inv_I1) : (op_double cast add mul pow2 c).isSome = true := by
  have h1' : c.data.length > 0 := h1
  have hd : c.data[0]? = some c.data[0] := by simp [h1']
  simp only [op_double, if_pos h1', hd]
  exact double_loop_isSome cast add mul pow2 _ c.data 0 _ (by omega) (by omega)

/-- C18: for counters `c`, `o` reachable from the constructors or `operator=(u)` through
`operator++`, `+= u` and `+= o`, and a 64-bit `u`: the conditions of the non-empty and
no-leading-zero assertions hold, and `operator++`, both `operator+=` (also `c += c`), the
comparisons and `operator double` all run to their `return`, so that no `BOOST_ASSERT`
fails and no `data[i]` is out of range on the way; and `add_remainder(d, x)`, reached only
after `safe_radd(d, x)` returned false, is then entered with `d > 0`. -/
theorem C18_no_assert_fails (c o : large_int) (u : Nat) (hc : Reachable c) (ho : Reachable o)
    (hu : u < u64_mod) :
    (c.inv_I1 ∧ c.inv_I2 ∧ asserts_ok c o = true) ∧
    (c.op_incr.isSome ∧ (c.op_add_assign_u64 u).isSome ∧
      (c.op_add_assign (operand.other o)).isSome ∧ (c.op_add_assign operand.self).isSome) ∧
    ((c.op_lt o).isSome ∧ (c.op_eq o).isSome ∧ (c.op_lt_u64 u).isSome ∧
      (c.op_gt_u64 u).isSome ∧ (c.op_eq_u64 u).isSome) ∧
    (∀ (F : Type) (cast : Nat → F) (add mul : F → F → F) (pow2 : Nat → F),
      (op_double cast add mul pow2 c).isSome) ∧
    (∀ d x, d < u64_mod → x < u64_mod → (safe_radd d x).1 = false →
      0 < d ∧ (add_remainder d x).isSome) := by
  obtain ⟨hwc, cc⟩ := Reachable_Canon hc
  obtain ⟨hwo, co⟩ := Reachable_Canon ho
  refine ⟨⟨cc.1, cc.2, asserts_ok_of_Canon cc co⟩, ⟨?_, ?_, ?_, ?_⟩, ⟨?_, ?_, ?_, ?_, ?_⟩,
    fun F cast add mul pow2 => op_double_isSome cast add mul pow2 c cc.1, ?_⟩
  · obtain ⟨r, hr, _⟩ := op_incr_spec c hwc cc.1
    rw [hr]; rfl
  · obtain ⟨r, hr, _⟩ := op_add_assign_u64_spec c u hwc cc.1 hu
    rw [hr]; rfl
  · obtain ⟨r, hr, _⟩ := op_add_assign_other_spec c o hwc hwo
    rw [hr]; rfl
  · obtain ⟨r, hr, _⟩ := op_add_assign_other_spec c c hwc hwc
    have e : c.op_add_assign operand.self = some r := hr
    rw [e]; rfl
  · rw [op_lt_spec hwc hwo cc co]; rfl
  · rw [op_eq_spec hwc hwo cc co]; rfl
  · rw [op_lt_u64_spec hwc cc hu]; rfl
  · rw [op_gt_u64_spec hwc cc hu]; rfl
  · rw [op_eq_u64_spec hwc cc hu]; rfl
  · intro d x hd hx hf
    have hov : ¬ d + x < u64_mod := by
      intro h
      rw [safe_radd_fits hd h] at hf
      exact absurd hf (by simp)
    refine ⟨by omega, ?_⟩
    rw [add_remainder_overflow hd hx hov]; rfl

theorem C18_no_assert_fails_witness :
    ((large_int.mk [0, 1]).op_add_assign (operand.other (ctor 5))).isSome :=
  (C18_no_assert_fails ⟨[0, 1]⟩ (ctor 5)
    7 (Reachable.op_incr (Reachable.ctor u64_max (by decide)) (by decide))
    (Reachable.ctor 5 (by decide)) (by decide)).2.1.2.2.1

theorem double_loop_eq_fold {F : Type} (cast : Nat → F) (add mul : F → F → F)
    (pow2 : Nat → F) :
    ∀ (fuel : Nat) (data : List Nat) (i : Nat) (result : F), data.length - i ≤ fuel →
      1 ≤ fuel →
      double_loop cast add mul pow2 fuel data i result
        = some ((List.range' (i + 1) (data.length - (i + 1))).foldl
            (fun acc j => add acc (mul (cast (data.getD j 0)) (pow2 (64 * j)))) result)
  | 0, _, _, _, _, h => by omega
  | fuel + 1, data, i, result, h1, _ => by
    by_cases hi : i + 1 < data.length
    · have hd : data[i + 1]? = some data[i + 1] := by simp [hi]
      have hg : data.getD (i + 1) 0 = data[i + 1] := by
        rw [List.getD_eq_getElem?_getD, hd, Option.getD_some]
      have hn : data.length - (i + 1) = (data.length - (i + 1 + 1)) + 1 := by omega
      simp only [double_loop, if_pos hi, hd]
      rw [double_loop_eq_fold cast add mul pow2 fuel data (i + 1) _ (by omega) (by omega), hn,
        List.range'_succ, List.foldl_cons, hg, Nat.mul_comm 64 (i + 1)]
    · have hn : data.length - (i + 1) = 0 := by omega
      simp only [double_loop, if_neg hi, hn, List.range'_zero, List.foldl_nil]

theorem op_double_eq_spec {F : Type} (cast : Nat → F) (add mul : F → F → F) (pow2 : Nat → F)
    (c : large_int) (h1 : c.inv_I1) :
    op_double cast add mul pow2 c = some (double_sum_spec cast add mul pow2 c.data) := by
  have h1' : c.data.length > 0 := h1
  have hd : c.data[0]? = some c.data[0] := by simp [h1']
  have hg : c.data.getD 0 0 = c.data[0] := by
    rw [List.getD_eq_getElem?_getD, hd, Option.getD_some]
  simp only [op_double, if_pos h1', hd]
  rw [double_loop_eq_fold cast add mul pow2 _ c.data 0 _ (by omega) (by omega)]
  simp only [double_sum_spec, hg, Nat.zero_add]

/-- C14: for a counter `c` with at least one word, `operator double` returns
`double(data[0])` plus, for `i = 1 .. size-1` in increasing `i`, `double(data[i]) * 2^(64*i)`,
computed with the double sum, product and power (`F` stands for the doubles, `real` for the
number a double denotes). For a single word `d < 2^53`, where `static_cast<double>` is exact
(the hypothesis `hexact`), the result is `double(d)` and denotes exactly `d`, so comparing it
with a 64-bit `u`, or with `double(u)` for `u < 2^53`, gives what `c < u`, `c == u` and
`c > u` return. -/
theorem C14_op_double (F : Type) (cast : Nat → F) (add mul : F → F → F) (pow2 : Nat → F)
    (real : F → ℚ) (c : large_int) (h1 : c.inv_I1)
    (hexact : ∀ w : Nat, w < 2 ^ 53 → real (cast w) = (w : ℚ)) :
    op_double cast add mul pow2 c = some (double_sum_spec cast add mul pow2 c.data) ∧
    (∀ d, c.data = [d] → d < 2 ^ 53 →
      op_double cast add mul pow2 c = some (cast d) ∧ real (cast d) = (d : ℚ) ∧
      (∀ u : Nat,
        c.op_lt_u64 u = some (decide (real (cast d) < (u : ℚ))) ∧
        c.op_eq_u64 u = some (decide (real (cast d) = (u : ℚ))) ∧
        c.op_gt_u64 u = some (decide (real (cast d) > (u : ℚ))) ∧
        (u < 2 ^ 53 →
          c.op_lt_u64 u = some (decide (real (cast d) < real (cast u))) ∧
          c.op_eq_u64 u = some (decide (real (cast d) = real (cast u))) ∧
          c.op_gt_u64 u = some (decide (real (cast d) > real (cast u)))))) := by
  refine ⟨op_double_eq_spec cast add mul pow2 c h1, ?_⟩
  intro d hd hlt
  have hr := hexact d hlt
  have e1 : op_double cast add mul pow2 c = some (cast d) := by
    rw [op_double_eq_spec cast add mul pow2 c h1, hd]
    simp [double_sum_spec]
  have hlt' : ∀ u : Nat, c.op_lt_u64 u = some (decide (d < u)) := by
    intro u; simp [op_lt_u64, hd]
  have heq' : ∀ u : Nat, c.op_eq_u64 u = some (decide (d = u)) := by
    intro u; simp [op_eq_u64, hd]
  have hgt' : ∀ u : Nat, c.op_gt_u64 u = some (decide (d > u)) := by
    intro u; simp [op_gt_u64, hd]
  have main : ∀ u : Nat,
      c.op_lt_u64 u = some (decide (real (cast d) < (u : ℚ))) ∧
      c.op_eq_u64 u = some (decide (real (cast d) = (u : ℚ))) ∧
      c.op_gt_u64 u = some (decide (real (cast d) > (u : ℚ))) := by
    intro u
    rw [hlt' u, heq' u, hgt' u, hr]
    refine ⟨?_, ?_, ?_⟩
    · rw [Option.some.injEq]; apply decide_eq_decide.2; exact Nat.cast_lt.symm
    · rw [Option.some.injEq]; apply decide_eq_decide.2; exact Nat.cast_inj.symm
    · rw [Option.some.injEq]; apply decide_eq_decide.2; exact Nat.cast_lt.symm
  refine ⟨e1, hr, fun u => ⟨(main u).1, (main u).2.1, (main u).2.2, fun hu => ?_⟩⟩
  rw [hexact u hu]
  exact main u

theorem C14_op_double_witness :
    op_double (fun w : Nat => (w : ℚ)) (fun a b => a + b) (fun a b => a * b)
        (fun e => (2 : ℚ) ^ e) ⟨[5, 1, 7]⟩
      = some (double_sum_spec (fun w : Nat => (w : ℚ)) (fun a b => a + b) (fun a b => a * b)
          (fun e => (2 : ℚ) ^ e) (large_int.mk [5, 1, 7]).data) ∧
    op_double (fun w : Nat => (w : ℚ)) (fun a b => a + b) (fun a b => a * b)
        (fun e => (2 : ℚ) ^ e) ⟨[5]⟩ = some ((5 : Nat) : ℚ) :=
  ⟨(C14_op_double ℚ (fun w : Nat => (w : ℚ)) (fun a b => a + b) (fun a b => a * b)
      (fun e => (2 : ℚ) ^ e) (fun x => x) ⟨[5, 1, 7]⟩ (by decide) (fun _ _ => rfl)).1,
    ((C14_op_double ℚ (fun w : Nat => (w : ℚ)) (fun a b => a + b) (fun a b => a * b)
      (fun e => (2 : ℚ) ^ e) (fun x => x) ⟨[5]⟩ (by decide) (fun _ _ => rfl)).2 5 rfl
      (by decide)).1⟩

end large_int_model

namespace axis_model

/-- C20: for the binary axis and every bool `x`, `value(index(x)) = x` and
`0 <= index(x) < size() = 2`, with false in bin 0 and true in bin 1; for every index `i`,
`bin(i) = value(i)`, and `index(value(i)) = i` exactly when `i` is 0 or 1, every other `i`
being mapped to true and so to bin 1. -/
theorem C20_binary_axis (x : Bool) (i : index_type) :
    binary.value (binary.index x) = x ∧
    0 ≤ binary.index x ∧ binary.index x < binary.size ∧ binary.size = 2 ∧
    binary.index false = 0 ∧ binary.index true = 1 ∧
    binary.bin i = binary.value i ∧
    (binary.index (binary.value i) = i ↔ (i = 0 ∨ i = 1)) ∧
    (i = 0 ∨ i = 1 ∨ (binary.value i = true ∧ binary.index (binary.value i) = 1)) := by
  have hx : binary.value (binary.index x) = x ∧ 0 ≤ binary.index x ∧
      binary.index x < binary.size := by
    cases x <;> simp [binary.value, binary.index, binary.size]
  refine ⟨hx.1, hx.2.1, hx.2.2, rfl, rfl, rfl, rfl, ?_, ?_⟩
  · by_cases h0 : i = 0
    · subst h0
      simp [binary.value, binary.index]
    · have hv : binary.value i = true := by simp [binary.value, h0]
      rw [hv]
      simp only [binary.index, if_true]
      constructor
      · intro h; exact Or.inr h.symm
      · intro h
        rcases h with h | h
        · exact absurd h h0
        · exact h.symm
  · by_cases h0 : i = 0
    · exact Or.inl h0
    · have hv : binary.value i = true := by simp [binary.value, h0]
      refine Or.inr (Or.inr ⟨hv, ?_⟩)
      rw [hv]
      rfl

end axis_model
